import Mathlib

set_option synthInstance.maxSize 1024

/-!
Verification of the allegedb branching, bitemporal graph storage engine
(`LiSE/allegedb/__init__.py`) against its natural-language specification.

The engine's time-cursor logic (`TimeSignalDescriptor.__set__`, `ORM._nbtt`,
`ORM._set_branch`, `ORM._copy_plans`, `ORM.delete_plan`, `ORM.unload`,
`ORM.get_turn_delta`, `ORM.get_delta`) is embedded shallowly: the mutable
ORM object becomes an explicit state record, Python dicts become association
lists (when iterated) or point-updatable functions (when only looked up),
and Python exceptions become an `Except` result with a `PyErr` code.

The `WindowDict` container lives in `allegedb/window.py`, which is not part
of the sources here; only its test suite (`tests/test_window.py`) is.  It is
therefore modelled from the specification's contract, with the behaviours
that the test suite pins down (slice bounds, deletion) taken from the tests.
-/

/-- The exception classes raised by the engine.  `historyError` subclasses
`KeyError` in the source, which `isKeyErrLike` reflects. -/
inductive PyErr where
  | timeError
  | valueError
  | historyError
  | keyError
  | typeError
  | assertionError
  deriving DecidableEq, Repr

/-- `HistoryError` is declared as a subclass of `KeyError`, so catching
`KeyError` also catches it. -/
def isKeyErrLike : PyErr → Bool
  | .historyError => true
  | .keyError => true
  | _ => false

/-- Pointwise update of a function, modelling assignment into a Python dict
that is only ever read back pointwise. -/
def updFun {κ β : Type} [DecidableEq κ] (f : κ → β) (k : κ) (v : β) : κ → β :=
  fun x => if x = k then v else f x

theorem updFun_same {κ β : Type} [DecidableEq κ] (f : κ → β) (k : κ) (v : β) :
    updFun f k v k = v := by
  simp [updFun]

theorem updFun_other {κ β : Type} [DecidableEq κ] (f : κ → β) (k x : κ) (v : β)
    (h : x ≠ k) : updFun f k v x = f x := by
  simp [updFun, h]

/-- Association-list lookup, modelling `d[k]` / `d.get(k)` on a Python dict. -/
def lookupA {κ β : Type} [DecidableEq κ] (l : List (κ × β)) (k : κ) : Option β :=
  match l with
  | [] => none
  | p :: t => if p.1 = k then some p.2 else lookupA t k

/-- Association-list insert-or-overwrite, modelling `d[k] = v` on a Python
dict (an existing key keeps its position, a new key is appended). -/
def upsertA {κ β : Type} [DecidableEq κ] (l : List (κ × β)) (k : κ) (v : β) :
    List (κ × β) :=
  match l with
  | [] => [(k, v)]
  | p :: t => if p.1 = k then (k, v) :: t else p :: upsertA t k v

theorem lookupA_upsertA_same {κ β : Type} [DecidableEq κ]
    (l : List (κ × β)) (k : κ) (v : β) : lookupA (upsertA l k v) k = some v := by
  induction l with
  | nil => simp [upsertA, lookupA]
  | cons p t ih =>
      by_cases h : p.1 = k
      · simp [upsertA, h, lookupA]
      · simp [upsertA, h, lookupA, ih]

theorem lookupA_upsertA_other {κ β : Type} [DecidableEq κ]
    (l : List (κ × β)) (k x : κ) (v : β) (h : x ≠ k) :
    lookupA (upsertA l k v) x = lookupA l x := by
  induction l with
  | nil =>
      simp only [upsertA, lookupA]
      rw [if_neg (fun hh => h hh.symm)]
  | cons p t ih =>
      by_cases hp : p.1 = k
      · subst hp
        simp only [upsertA, if_pos rfl, lookupA]
        rw [if_neg (fun hh => h hh.symm), if_neg (fun hh => h hh.symm)]
      · simp only [upsertA, if_neg hp, lookupA]
        by_cases hx : p.1 = x
        · simp [hx]
        · simp [hx, ih]

/-! ## The WindowDict container

Modelled from the spec: `allegedb/window.py` is absent from the sources.
A `WindowDict` is an ordered associative container over integer keys with a
cursor; the entries at or before the cursor sit in `past` (ascending) and
the entries after it in `future` (ascending), mirroring the two-deque
representation the spec describes.  Operations whose behaviour the in-repo
test suite (`test_window.py`) pins down follow the tests. -/
structure WindowDict (α : Type) where
  past : List (Int × α)
  future : List (Int × α)
  deriving DecidableEq, Repr

namespace WindowDict

variable {α : Type}

/-- All stored entries in ascending key order. -/
def entries (w : WindowDict α) : List (Int × α) := w.past ++ w.future

/-- The well-formedness invariant: keys strictly ascending across the
concatenated representation. -/
def keysSorted (l : List (Int × α)) : Prop :=
  l.Pairwise (fun p q => p.1 < q.1)

instance (l : List (Int × α)) : Decidable (keysSorted l) := by
  unfold keysSorted; infer_instance

/-- Modelled from the spec: `seek(key)` repositions the cursor, moving the
entries with key at most the cursor into `past` and the rest into
`future`; the key need not be stored. -/
def seek (w : WindowDict α) (c : Int) : WindowDict α :=
  ⟨(entries w).filter (fun p => p.1 ≤ c),
   (entries w).filter (fun p => c < p.1)⟩

/-- `past()` of the container: entries with key at most the cursor, in
descending key order. -/
def pastItems (w : WindowDict α) : List (Int × α) := w.past.reverse

/-- `future()` of the container: entries with key after the cursor, in
ascending key order. -/
def futureItems (w : WindowDict α) : List (Int × α) := w.future

/-- Exact-key lookup among the stored entries. -/
def lookupVal (l : List (Int × α)) (k : Int) : Option α :=
  match l with
  | [] => none
  | p :: t => if p.1 = k then some p.2 else lookupVal t k

/-- Modelled from the spec: exact-key access (`wd[k]` for a stored key);
per the test suite, access on an empty container raises `HistoryError`
(a `KeyError` subclass), and access to a missing key raises within the
`KeyError` family. -/
def get (w : WindowDict α) (k : Int) : Except PyErr α :=
  match lookupVal (entries w) k with
  | some v => .ok v
  | none => if (entries w).isEmpty then .error .historyError else .error .keyError

/-- Modelled from the spec and the in-repo tests: deleting a stored key
always succeeds (the test suite deletes every key of a 100-entry dict in
ascending order without error), deleting an absent key raises within the
`KeyError` family. -/
def del (w : WindowDict α) (k : Int) : Except PyErr (WindowDict α) :=
  if (entries w).any (fun p => p.1 = k) then
    .ok ⟨(entries w).filter (fun p => p.1 < k),
         (entries w).filter (fun p => k < p.1)⟩
  else .error .keyError

end WindowDict

namespace WindowDict

variable {α : Type}

/-- Helper for `intRange`: the `n` integers starting at `a`. -/
def intRangeAux (a : Int) : Nat → List Int
  | 0 => []
  | n + 1 => a :: intRangeAux (a + 1) n

/-- `range(a, b)` over the integers: `a, a+1, ..., b-1`. -/
def intRange (a b : Int) : List Int :=
  intRangeAux a (b - a).toNat

/-- `range(a, b, -1)` over the integers: `a, a-1, ..., b+1`. -/
def intRangeDesc (a b : Int) : List Int :=
  (intRange (b + 1) (a + 1)).reverse

theorem mem_intRangeAux {k a : Int} {n : Nat} :
    k ∈ intRangeAux a n ↔ a ≤ k ∧ k < a + n := by
  induction n generalizing a with
  | zero =>
      simp only [intRangeAux, List.not_mem_nil, false_iff]
      omega
  | succ m ih =>
      simp only [intRangeAux, List.mem_cons, ih]
      omega

theorem mem_intRange {a b k : Int} : k ∈ intRange a b ↔ a ≤ k ∧ k < b := by
  unfold intRange
  rw [mem_intRangeAux]
  omega

theorem intRange_eq_nil {a b : Int} (h : b ≤ a) : intRange a b = [] := by
  unfold intRange
  have h0 : (b - a).toNat = 0 := by omega
  rw [h0]
  rfl

theorem intRange_cons {a b : Int} (h : a < b) :
    intRange a b = a :: intRange (a + 1) b := by
  unfold intRange
  have h1 : (b - a).toNat = (b - (a + 1)).toNat + 1 := by omega
  rw [h1]
  rfl

theorem intRangeAux_append (a : Int) (m n : Nat) :
    intRangeAux a (m + n) = intRangeAux a m ++ intRangeAux (a + m) n := by
  induction m generalizing a with
  | zero => simp [intRangeAux]
  | succ p ih =>
      have hs : p + 1 + n = (p + n) + 1 := by omega
      rw [hs]
      simp only [intRangeAux, List.cons_append, ih (a + 1)]
      have hc : a + 1 + (p : Int) = a + (p + 1 : Nat) := by push_cast; ring
      rw [hc]

theorem intRange_split {a c b : Int} (h1 : a ≤ c) (h2 : c ≤ b) :
    intRange a b = intRange a c ++ intRange c b := by
  unfold intRange
  have h3 : (b - a).toNat = (c - a).toNat + (b - c).toNat := by omega
  rw [h3, intRangeAux_append]
  have h4 : a + ((c - a).toNat : Int) = c := by omega
  rw [h4]

theorem lookupVal_eq_none_of_lt {l : List (Int × α)} {k : Int}
    (h : ∀ q ∈ l, k < q.1) : lookupVal l k = none := by
  induction l with
  | nil => rfl
  | cons p t ih =>
      have hp : k < p.1 := h p (List.mem_cons_self p t)
      simp only [lookupVal]
      rw [if_neg (by omega)]
      exact ih (fun q hq => h q (List.mem_cons_of_mem p hq))

theorem filter_le_append_filter_gt (c : Int) (l : List (Int × α))
    (hs : keysSorted l) :
    l.filter (fun p => p.1 ≤ c) ++ l.filter (fun p => c < p.1) = l := by
  induction l with
  | nil => rfl
  | cons p t ih =>
      rw [keysSorted, List.pairwise_cons] at hs
      obtain ⟨hhead, htail⟩ := hs
      by_cases hle : p.1 ≤ c
      · rw [List.filter_cons_of_pos (by simpa using hle),
            List.filter_cons_of_neg (by simpa using hle)]
        simp only [List.cons_append]
        rw [ih htail]
      · have hgt : c < p.1 := by omega
        rw [List.filter_cons_of_neg (by simpa using hle),
            List.filter_cons_of_pos (by simpa using hgt)]
        have hnil : t.filter (fun p => p.1 ≤ c) = [] := by
          rw [List.filter_eq_nil_iff]
          intro q hq
          have := hhead q hq
          simp only [decide_eq_true_eq]
          omega
        have hall : t.filter (fun p => c < p.1) = t := by
          rw [List.filter_eq_self]
          intro q hq
          have := hhead q hq
          simp only [decide_eq_true_eq]
          omega
        rw [hnil, hall]
        rfl

theorem filter_lt_append_filter_gt_eq_filter_ne (k : Int) (l : List (Int × α))
    (hs : keysSorted l) :
    l.filter (fun p => p.1 < k) ++ l.filter (fun p => k < p.1)
      = l.filter (fun p => p.1 ≠ k) := by
  induction l with
  | nil => rfl
  | cons p t ih =>
      rw [keysSorted, List.pairwise_cons] at hs
      obtain ⟨hhead, htail⟩ := hs
      rcases lt_trichotomy p.1 k with hlt | heq | hgt
      · rw [List.filter_cons_of_pos (by simpa using hlt),
            List.filter_cons_of_neg (by simp; omega),
            List.filter_cons_of_pos (by simp; omega)]
        simp only [List.cons_append]
        rw [ih htail]
      · rw [List.filter_cons_of_neg (by simp; omega),
            List.filter_cons_of_neg (by simp; omega),
            List.filter_cons_of_neg (by simp; omega)]
        exact ih htail
      · rw [List.filter_cons_of_neg (by simp; omega),
            List.filter_cons_of_pos (by simp; omega),
            List.filter_cons_of_pos (by simp; omega)]
        have hnil : t.filter (fun p => p.1 < k) = [] := by
          rw [List.filter_eq_nil_iff]
          intro q hq
          have := hhead q hq
          simp only [decide_eq_true_eq]
          omega
        have heqf : t.filter (fun p => k < p.1) = t.filter (fun p => p.1 ≠ k) := by
          apply List.filter_congr
          intro q hq
          have := hhead q hq
          simp only [decide_eq_true_eq, ne_eq, decide_not]
          have h1 : k < q.1 := by omega
          have h2 : ¬(q.1 = k) := by omega
          simp [h1, h2]
        rw [hnil, heqf]
        rfl

theorem filterMap_intRange_lookup (l : List (Int × α)) (hs : keysSorted l)
    (a b : Int) :
    (intRange a b).filterMap (lookupVal l)
      = (l.filter (fun p => a ≤ p.1 ∧ p.1 < b)).map (fun p => p.2) := by
  induction l generalizing a with
  | nil =>
      have h : List.filterMap (lookupVal ([] : List (Int × α))) (intRange a b) = [] :=
        List.filterMap_eq_nil_iff.mpr (fun k _ => rfl)
      rw [h]
      rfl
  | cons p t ih =>
      rw [keysSorted, List.pairwise_cons] at hs
      obtain ⟨hhead, htail⟩ := hs
      by_cases hin : a ≤ p.1 ∧ p.1 < b
      · obtain ⟨ha, hb⟩ := hin
        have h1 : (intRange a p.1).filterMap (lookupVal (p :: t)) = [] := by
          rw [List.filterMap_eq_nil_iff]
          intro k hk
          rw [mem_intRange] at hk
          simp only [lookupVal]
          rw [if_neg (by omega)]
          exact lookupVal_eq_none_of_lt
            (fun q hq => lt_trans hk.2 (hhead q hq))
        have h2 : lookupVal (p :: t) p.1 = some p.2 := by
          simp [lookupVal]
        have h3 : (intRange (p.1 + 1) b).filterMap (lookupVal (p :: t))
            = (intRange (p.1 + 1) b).filterMap (lookupVal t) := by
          apply List.filterMap_congr
          intro k hk
          rw [mem_intRange] at hk
          simp only [lookupVal]
          rw [if_neg (by omega)]
        rw [intRange_split ha (le_of_lt hb), List.filterMap_append, h1,
            intRange_cons hb, List.filterMap_cons, h2, h3, ih htail (p.1 + 1)]
        rw [List.filter_cons_of_pos (by simp only [decide_eq_true_eq]; exact ⟨ha, hb⟩)]
        simp only [List.map_cons, List.nil_append]
        congr 1
        have heq : t.filter (fun q => decide (p.1 + 1 ≤ q.1 ∧ q.1 < b))
            = t.filter (fun q => decide (a ≤ q.1 ∧ q.1 < b)) := by
          apply List.filter_congr
          intro q hq
          have := hhead q hq
          rw [decide_eq_decide]
          omega
        rw [heq]
      · have hcong : (intRange a b).filterMap (lookupVal (p :: t))
            = (intRange a b).filterMap (lookupVal t) := by
          apply List.filterMap_congr
          intro k hk
          rw [mem_intRange] at hk
          simp only [lookupVal]
          rw [if_neg (by omega)]
        rw [hcong, ih htail a,
            List.filter_cons_of_neg (by simp only [decide_eq_true_eq]; exact hin)]

theorem filterMap_intRangeDesc_lookup (l : List (Int × α)) (hs : keysSorted l)
    (a b : Int) :
    (intRangeDesc a b).filterMap (lookupVal l)
      = ((l.filter (fun p => b < p.1 ∧ p.1 ≤ a)).map (fun p => p.2)).reverse := by
  unfold intRangeDesc
  rw [List.filterMap_reverse, filterMap_intRange_lookup l hs]
  congr 2
  apply List.filter_congr
  intro q _
  rw [decide_eq_decide]
  omega

end WindowDict

/-- Range slicing over an ascending association list, modelled from the
in-repo WindowDict tests (`test_slice`): with both bounds given the slice is
half-open (`range(a, b)` ascending when `a < b`, `range(a, b, -1)` descending
when `a > b`; `a = b` yields nothing); an omitted bound leaves the other
bound inclusive. -/
def sliceVals {κ β : Type} [LinearOrder κ] (l : List (κ × β))
    (a b : Option κ) : List β :=
  match a, b with
  | none, none => l.map (fun p => p.2)
  | some a, none => (l.filter (fun p => a ≤ p.1)).map (fun p => p.2)
  | none, some b => (l.filter (fun p => p.1 ≤ b)).map (fun p => p.2)
  | some a, some b =>
      if a ≤ b then (l.filter (fun p => a ≤ p.1 ∧ p.1 < b)).map (fun p => p.2)
      else ((l.filter (fun p => b < p.1 ∧ p.1 ≤ a)).map (fun p => p.2)).reverse

namespace WindowDict

variable {α : Type}

/-- `wd[a:b]`: slicing a WindowDict, cursor-independent. -/
def wdSlice (w : WindowDict α) (a b : Option Int) : List α :=
  sliceVals (entries w) a b

/-- The slice the claim describes: `[wd[k] for k in range(a, b+1) if k in wd]`
(both bounds inclusive). -/
def sliceClaim (w : WindowDict α) (a b : Int) : List α :=
  (intRange a (b + 1)).filterMap (lookupVal (entries w))

end WindowDict

namespace WindowDict

variable {α : Type}

theorem lookupVal_eq_none_iff (l : List (Int × α)) (k : Int) :
    lookupVal l k = none ↔ l.any (fun p => p.1 = k) = false := by
  induction l with
  | nil => simp [lookupVal]
  | cons p t ih =>
      by_cases h : p.1 = k
      · simp [lookupVal, h]
      · simp [lookupVal, h, ih]

theorem lookupVal_eq_none_of_ne {l : List (Int × α)} {k : Int}
    (h : ∀ q ∈ l, q.1 ≠ k) : lookupVal l k = none := by
  induction l with
  | nil => rfl
  | cons p t ih =>
      simp only [lookupVal]
      rw [if_neg (h p (List.mem_cons_self p t))]
      exact ih (fun q hq => h q (List.mem_cons_of_mem p hq))

/-- A 3-entry WindowDict on which the claimed inclusive-bounds slicing
disagrees with the slicing the in-repo tests pin down. -/
def c4dict : WindowDict Int := ⟨[(0, 10), (1, 11), (2, 12)], []⟩

/-- C4 counterexample: with both bounds given, `wd[0:2]` does *not* equal
`[wd[k] for k in range(0, 2+1) if k in wd]` — the slice is `[10, 11]`
(upper bound exclusive, as `test_slice` asserts via
`windd[25:50] == [windd[i] for i in range(25, 50)]`), while the claim
predicts `[10, 11, 12]`. -/
theorem c4_slice_counterexample :
    wdSlice c4dict (some 0) (some 2) ≠ sliceClaim c4dict 0 2 := by
  decide

/-- C4 amended: for every sorted WindowDict, slicing with both bounds given
is half-open — `wd[a:b]` equals `[wd[k] for k in range(a, b) if k in wd]`
when `a < b` and `[wd[k] for k in range(a, b, -1) if k in wd]` when
`a > b` — while an omitted bound leaves the other bound inclusive and the
key range open-ended on the omitted side. -/
theorem c4_slice_amended (w : WindowDict α) (a b : Int)
    (hs : keysSorted (entries w)) :
    (a < b → wdSlice w (some a) (some b)
        = (intRange a b).filterMap (lookupVal (entries w)))
  ∧ (b < a → wdSlice w (some a) (some b)
        = (intRangeDesc a b).filterMap (lookupVal (entries w)))
  ∧ wdSlice w (some a) none = ((entries w).filter (fun p => a ≤ p.1)).map (fun p => p.2)
  ∧ wdSlice w none (some b) = ((entries w).filter (fun p => p.1 ≤ b)).map (fun p => p.2)
  ∧ wdSlice w none none = (entries w).map (fun p => p.2) := by
  refine ⟨?_, ?_, rfl, rfl, rfl⟩
  · intro hab
    show (if a ≤ b then ((entries w).filter (fun p => a ≤ p.1 ∧ p.1 < b)).map (fun p => p.2)
          else (((entries w).filter (fun p => b < p.1 ∧ p.1 ≤ a)).map (fun p => p.2)).reverse)
        = (intRange a b).filterMap (lookupVal (entries w))
    rw [if_pos (le_of_lt hab), filterMap_intRange_lookup (entries w) hs a b]
  · intro hba
    show (if a ≤ b then ((entries w).filter (fun p => a ≤ p.1 ∧ p.1 < b)).map (fun p => p.2)
          else (((entries w).filter (fun p => b < p.1 ∧ p.1 ≤ a)).map (fun p => p.2)).reverse)
        = (intRangeDesc a b).filterMap (lookupVal (entries w))
    rw [if_neg (not_le.mpr hba), filterMap_intRangeDesc_lookup (entries w) hs a b]

/-- Concrete sorted WindowDict used by the slice witness. -/
def c4wit : WindowDict Int := ⟨[(0, 10), (1, 11)], [(2, 12), (5, 15)]⟩

theorem c4_slice_amended_witness :
    wdSlice c4wit (some 0) (some 2)
      = (intRange 0 2).filterMap (lookupVal (entries c4wit)) :=
  (c4_slice_amended c4wit 0 2 (by decide)).1 (by decide)

/-- C6: after seeking any cursor `c`, `past()` holds exactly the entries
with key at most `c` in descending key order, `future()` exactly those with
key after `c` in ascending order, the reverse of `past()` concatenated with
`future()` is the full ascending store, and no entry is in both. -/
theorem c6_past_future_partition (w : WindowDict α) (c : Int)
    (hs : keysSorted (entries w)) :
    ((w.seek c).pastItems).reverse ++ (w.seek c).futureItems = entries w
  ∧ (w.seek c).pastItems = ((entries w).filter (fun p => p.1 ≤ c)).reverse
  ∧ (w.seek c).futureItems = (entries w).filter (fun p => c < p.1)
  ∧ ((w.seek c).pastItems).Pairwise (fun p q => q.1 < p.1)
  ∧ ((w.seek c).futureItems).Pairwise (fun p q => p.1 < q.1)
  ∧ ∀ p, p ∈ (w.seek c).pastItems → p ∉ (w.seek c).futureItems := by
  refine ⟨?_, rfl, rfl, ?_, ?_, ?_⟩
  · show (((entries w).filter (fun p => p.1 ≤ c)).reverse).reverse
        ++ (entries w).filter (fun p => c < p.1) = entries w
    rw [List.reverse_reverse]
    exact filter_le_append_filter_gt c (entries w) hs
  · show (((entries w).filter (fun p => p.1 ≤ c)).reverse).Pairwise
        (fun p q => q.1 < p.1)
    rw [List.pairwise_reverse]
    exact List.Pairwise.filter _ hs
  · exact List.Pairwise.filter _ hs
  · intro p hp hq
    rw [pastItems, List.mem_reverse] at hp
    have hp2 := (List.mem_filter.mp hp).2
    have hq2 := (List.mem_filter.mp hq).2
    simp only [decide_eq_true_eq] at hp2 hq2
    omega

/-- Concrete WindowDict used by the past/future witness. -/
def c6wit : WindowDict Int := ⟨[(0, 7)], [(3, 8), (4, 9)]⟩

theorem c6_past_future_partition_witness :
    ((c6wit.seek 3).pastItems).reverse ++ (c6wit.seek 3).futureItems
      = entries c6wit :=
  (c6_past_future_partition c6wit 3 (by decide)).1

/-- A singleton WindowDict: its only key has nothing before it. -/
def c7single : WindowDict Int := ⟨[(0, 5)], []⟩

/-- C7 counterexample: deleting the only remaining key (which has no data
before it) succeeds instead of raising `HistoryError` — exactly as
`test_del` requires, which deletes all 100 keys in ascending order without
an error. -/
theorem c7_del_counterexample :
    del c7single 0 = Except.ok (⟨[], []⟩ : WindowDict Int) := by
  rfl

/-- C7 amended: deleting requires the key to exist (a `KeyError`-family
error is raised for an absent key); deleting any *present* key succeeds,
including the earliest remaining one, and removes it from the entries and
from subsequent exact-key access (which then raises within the `KeyError`
family — `HistoryError` once the container is empty). -/
theorem c7_del_amended (w : WindowDict α) (k : Int)
    (hs : keysSorted (entries w)) :
    (lookupVal (entries w) k = none → del w k = .error .keyError)
  ∧ (∀ v, lookupVal (entries w) k = some v →
      ∃ w2, del w k = .ok w2
        ∧ entries w2 = (entries w).filter (fun p => p.1 ≠ k)
        ∧ lookupVal (entries w2) k = none
        ∧ ∃ er, get w2 k = .error er ∧ isKeyErrLike er = true) := by
  constructor
  · intro hnone
    have hany := (lookupVal_eq_none_iff (entries w) k).mp hnone
    unfold del
    rw [if_neg (by rw [hany]; exact Bool.false_ne_true)]
  · intro v hv
    have hany : (entries w).any (fun p => p.1 = k) = true := by
      by_contra hc
      rw [(lookupVal_eq_none_iff (entries w) k).mpr
        (Bool.eq_false_iff.mpr hc)] at hv
      exact Option.noConfusion hv
    refine ⟨⟨(entries w).filter (fun p => p.1 < k),
            (entries w).filter (fun p => k < p.1)⟩, ?_, ?_, ?_, ?_⟩
    · unfold del
      rw [if_pos hany]
    · show (entries w).filter (fun p => p.1 < k)
          ++ (entries w).filter (fun p => k < p.1)
          = (entries w).filter (fun p => p.1 ≠ k)
      exact filter_lt_append_filter_gt_eq_filter_ne k (entries w) hs
    · apply lookupVal_eq_none_of_ne
      intro q hq
      rw [show (⟨(entries w).filter (fun p => p.1 < k),
            (entries w).filter (fun p => k < p.1)⟩ : WindowDict α).entries
          = (entries w).filter (fun p => p.1 < k)
            ++ (entries w).filter (fun p => k < p.1) from rfl] at hq
      rcases List.mem_append.mp hq with h | h
      · have := (List.mem_filter.mp h).2
        simp only [decide_eq_true_eq] at this
        omega
      · have := (List.mem_filter.mp h).2
        simp only [decide_eq_true_eq] at this
        omega
    · have hnone2 : lookupVal (entries (⟨(entries w).filter (fun p => p.1 < k),
            (entries w).filter (fun p => k < p.1)⟩ : WindowDict α)) k = none := by
        apply lookupVal_eq_none_of_ne
        intro q hq
        rcases List.mem_append.mp hq with h | h
        · have := (List.mem_filter.mp h).2
          simp only [decide_eq_true_eq] at this
          omega
        · have := (List.mem_filter.mp h).2
          simp only [decide_eq_true_eq] at this
          omega
      unfold get
      rw [hnone2]
      by_cases he : (entries (⟨(entries w).filter (fun p => p.1 < k),
            (entries w).filter (fun p => k < p.1)⟩ : WindowDict α)).isEmpty
      · exact ⟨.historyError, by rw [if_pos he], rfl⟩
      · exact ⟨.keyError, by rw [if_neg he], rfl⟩

/-- Concrete 2-entry WindowDict used by the deletion witness. -/
def c7wit : WindowDict Int := ⟨[(0, 5), (2, 6)], []⟩

theorem c7_del_amended_witness :
    ∃ w2, del c7wit 0 = .ok w2
      ∧ entries w2 = (entries c7wit).filter (fun p => p.1 ≠ 0)
      ∧ lookupVal (entries w2) 0 = none
      ∧ ∃ er, get w2 0 = .error er ∧ isKeyErrLike er = true :=
  (c7_del_amended c7wit 0 (by decide)).2 5 (by decide)

end WindowDict

/-! ## The ORM state

The mutable `ORM` object of `allegedb/__init__.py`, as an explicit state
record.  Python dicts that the embedded functions iterate over become
association lists; dicts that are only read and written pointwise become
functions.  `_turn_end` and `_turn_end_plan` are `defaultdict(lambda: 0)`;
`_turn_end` is modelled as a total function (no code checks its key
membership) while `_turn_end_plan` keeps an `Option` so that the
`setdefault` / `in` logic of the source is represented, with the
defaultdict's insert-on-access made explicit where the source subscripts
it.  The five caches of the cache family (`cache.py` is not among the
sources) are modelled from the spec: a cache stores one settings row per
`(branch, turn, tick)` coordinate, registers itself in `_where_cached`
when storing, and the `settings`/`presettings` projections feeding the
delta engine are per-`(branch, turn)` tick-ordered row lists. -/

/-- The five caches of the cache family. -/
inductive CacheName where
  | graphVal
  | nodes
  | edges
  | nodeVal
  | edgeVal
  deriving DecidableEq, Repr

/-- An opaque settings row: the identity fields and value of a cached
write, packed. -/
abbrev SRow := List Int

/-- `(parent, turn_start, tick_start, turn_end, tick_end)` as stored in
`ORM._branches` (the root branch has parent `None`). -/
abbrev BranchInfo := Option String × Nat × Nat × Nat × Nat

/-- Attribute values carried by deltas. -/
abbrev Val := Int

/-- A `graph_val` settings row `(graph, key, value)`. -/
abbrev GvRow := String × String × Val

/-- A `nodes` settings row `(graph, node, exists)`. -/
abbrev NRow := String × String × Bool

/-- A `node_val` settings row `(graph, node, key, value)`. -/
abbrev NvRow := String × String × String × Val

/-- An `edges` settings row `(graph, orig, dest, idx, exists)`. -/
abbrev ERow := String × String × String × Nat × Bool

/-- An `edge_val` settings row `(graph, orig, dest, idx, key, value)`. -/
abbrev EvRow := String × String × String × Nat × String × Val

@[ext]
structure Orm where
  obranch : String
  oturn : Nat
  otick : Nat
  forward : Bool
  planning : Bool
  branches : List (String × BranchInfo)
  turn_end : String × Nat → Nat
  turn_end_plan : String × Nat → Option Nat
  last_plan : Nat
  plans : Nat → String × Nat × Nat
  branches_plans : String → List Nat
  plan_ticks : Nat → List (Nat × List Nat)
  plan_ticks_uncommitted : List (Nat × Nat × Nat)
  time_plan : String × Nat × Nat → Option Nat
  where_cached : String × Nat × Nat → List CacheName
  cacheData : CacheName → String × Nat × Nat → Option SRow
  cacheKf : CacheName → List (String × List (String × List (Nat × List (Nat × SRow))))
  loaded : List (String × (Nat × Nat × Nat × Nat))
  kfd : List (String × List (Nat × List Nat))
  warnings : List String
  multiGraph : String → Bool
  gvSettings : String × Nat → Option (List (Nat × GvRow))
  nSettings : String × Nat → Option (List (Nat × NRow))
  nvSettings : String × Nat → Option (List (Nat × NvRow))
  eSettings : String × Nat → Option (List (Nat × ERow))
  evSettings : String × Nat → Option (List (Nat × EvRow))
  gvPresettings : String × Nat → Option (List (Nat × GvRow))
  nPresettings : String × Nat → Option (List (Nat × NRow))
  nvPresettings : String × Nat → Option (List (Nat × NvRow))
  ePresettings : String × Nat → Option (List (Nat × ERow))
  evPresettings : String × Nat → Option (List (Nat × EvRow))

/-- The value produced by
`turn_end_plan.setdefault((branch_now, turn_now), tick_then)` in
`TimeSignalDescriptor.__set__`. -/
def tickNowAt (e : Orm) (b : String) (u : Nat) : Nat :=
  (e.turn_end_plan (b, u)).getD e.otick

/-- The `_turn_end_plan` mapping after that `setdefault` call. -/
def tepAfterSetdefault (e : Orm) (b : String) (u : Nat) :
    String × Nat → Option Nat :=
  match e.turn_end_plan (b, u) with
  | some _ => e.turn_end_plan
  | none => updFun e.turn_end_plan (b, u) (some e.otick)

/-- `TimeSignalDescriptor.__set__`: assigning a `(branch, turn)` pair to
`orm.time`.  The blinker signal send and the `query.new_branch` backend
call are external and omitted. -/
def set_time (e : Orm) (branch_now : String) (turn_now : Nat) :
    Except PyErr Orm :=
  if e.obranch = branch_now ∧ e.oturn = turn_now then .ok e
  else if e.forward ∧ e.planning = false ∧ branch_now ≠ e.obranch then
    .error .timeError
  else if e.forward ∧ e.planning = false ∧ turn_now < e.oturn then
    .error .timeError
  else if e.forward ∧ e.planning = false ∧ e.oturn + 1 < turn_now then
    .error .timeError
  else
    match lookupA e.branches branch_now with
    | some (parent, turn_start, tick_start, turn_end0, tick_end0) =>
        if turn_now < turn_start then .error .valueError
        else if turn_now = turn_start ∧ tickNowAt e branch_now turn_now < tick_start then
          .error .valueError
        else
          .ok { e with
            obranch := branch_now
            oturn := turn_now
            otick := tickNowAt e branch_now turn_now
            branches :=
              if e.planning = false ∧
                  (turn_end0 < turn_now ∨
                    (turn_now = turn_end0 ∧ tick_end0 < tickNowAt e branch_now turn_now))
              then upsertA e.branches branch_now
                (parent, turn_start, tick_start, turn_now, tickNowAt e branch_now turn_now)
              else e.branches
            turn_end :=
              if e.planning = false ∧
                  e.turn_end (branch_now, turn_now) < tickNowAt e branch_now turn_now
              then updFun e.turn_end (branch_now, turn_now) (tickNowAt e branch_now turn_now)
              else e.turn_end
            turn_end_plan :=
              updFun (tepAfterSetdefault e branch_now turn_now) (branch_now, turn_now)
                (some (tickNowAt e branch_now turn_now)) }
    | none =>
        .ok { e with
          obranch := branch_now
          oturn := turn_now
          branches := upsertA e.branches branch_now
            (some e.obranch, turn_now, e.otick, turn_now, e.otick)
          turn_end :=
            if e.planning = false ∧ e.turn_end (branch_now, turn_now) < e.otick
            then updFun e.turn_end (branch_now, turn_now) e.otick
            else e.turn_end
          turn_end_plan :=
            updFun e.turn_end_plan (branch_now, turn_now) (some e.otick) }

/-- C1: in forward mode, outside planning, with the cursor at `(b, t, k)`
on a live branch: setting the time to `(b, t+1)` succeeds, while setting
the turn to anything beyond `t+1`, to anything before `t`, or changing the
branch raises `TimeError`. -/
theorem c1_forward_turn_rules (e : Orm) (parent : Option String)
    (ts ks te0 ke0 : Nat)
    (hf : e.forward = true) (hp : e.planning = false)
    (hb : lookupA e.branches e.obranch = some (parent, ts, ks, te0, ke0))
    (hts : ts ≤ e.oturn) :
    (∃ e2, set_time e e.obranch (e.oturn + 1) = .ok e2
        ∧ e2.obranch = e.obranch ∧ e2.oturn = e.oturn + 1)
  ∧ (∀ u, e.oturn + 1 < u → set_time e e.obranch u = .error .timeError)
  ∧ (∀ u, u < e.oturn → set_time e e.obranch u = .error .timeError)
  ∧ (∀ b u, b ≠ e.obranch → set_time e b u = .error .timeError) := by
  refine ⟨?_, ?_, ?_, ?_⟩
  · unfold set_time
    rw [if_neg (fun h => absurd h.2 (by omega)),
        if_neg (fun h => h.2.2 rfl),
        if_neg (fun h => absurd h.2.2 (by omega)),
        if_neg (fun h => absurd h.2.2 (by omega)),
        hb]
    dsimp only
    rw [if_neg (by omega),
        if_neg (fun h => absurd h.1 (by omega))]
    exact ⟨_, rfl, rfl, rfl⟩
  · intro u hu
    unfold set_time
    rw [if_neg (fun h => absurd h.2 (by omega)),
        if_neg (fun h => h.2.2 rfl),
        if_neg (fun h => absurd h.2.2 (by omega)),
        if_pos ⟨hf, hp, by omega⟩]
  · intro u hu
    unfold set_time
    rw [if_neg (fun h => absurd h.2 (by omega)),
        if_neg (fun h => h.2.2 rfl),
        if_pos ⟨hf, hp, by omega⟩]
  · intro b u hbne
    unfold set_time
    rw [if_neg (fun h => hbne h.1.symm),
        if_pos ⟨hf, hp, fun h => hbne h⟩]

/-- A minimal concrete ORM state: the initial `trunk` cursor. -/
def baseOrm : Orm where
  obranch := "trunk"
  oturn := 0
  otick := 0
  forward := false
  planning := false
  branches := [("trunk", (none, 0, 0, 0, 0))]
  turn_end := fun _ => 0
  turn_end_plan := fun _ => none
  last_plan := 0
  plans := fun _ => ("trunk", 0, 0)
  branches_plans := fun _ => []
  plan_ticks := fun _ => []
  plan_ticks_uncommitted := []
  time_plan := fun _ => none
  where_cached := fun _ => []
  cacheData := fun _ _ => none
  cacheKf := fun _ => []
  loaded := []
  kfd := []
  warnings := []
  multiGraph := fun _ => false
  gvSettings := fun _ => none
  nSettings := fun _ => none
  nvSettings := fun _ => none
  eSettings := fun _ => none
  evSettings := fun _ => none
  gvPresettings := fun _ => none
  nPresettings := fun _ => none
  nvPresettings := fun _ => none
  ePresettings := fun _ => none
  evPresettings := fun _ => none

/-- Forward-advancing variant of the base state. -/
def c1orm : Orm := { baseOrm with forward := true }

theorem c1_forward_turn_rules_witness :
    (∃ e2, set_time c1orm "trunk" (0 + 1) = .ok e2
        ∧ e2.obranch = "trunk" ∧ e2.oturn = 0 + 1)
  ∧ set_time c1orm "trunk" 3 = .error .timeError
  ∧ set_time c1orm "branch2" 0 = .error .timeError := by
  have h := c1_forward_turn_rules c1orm none 0 0 0 0 rfl rfl rfl (by decide)
  exact ⟨h.1, h.2.1 3 (by decide), h.2.2.2 "branch2" 0 (by decide)⟩

/-- `defaultdict(list)` append: `d[k].append(x)` (creates the key at the
end on first use, keeps its position afterwards). -/
def assocAppend {κ β : Type} [DecidableEq κ] (l : List (κ × List β))
    (k : κ) (x : β) : List (κ × List β) :=
  match l with
  | [] => [(k, [x])]
  | p :: t => if p.1 = k then (p.1, p.2 ++ [x]) :: t else p :: assocAppend t k x

/-- The tick allocated by `_nbtt`: one past the current tick, bumped past
the planned end of the current `(branch, turn)` when that is already at or
ahead of it. -/
def allocatedTick (e : Orm) : Nat :=
  match e.turn_end_plan (e.obranch, e.oturn) with
  | some tep => if e.otick + 1 ≤ tep then tep + 1 else e.otick + 1
  | none => e.otick + 1

/-- The `_loaded` window update at the end of `_nbtt`: push the late edge
of the branch's loaded window out to the new coordinate. -/
def nbttLoaded (loaded : List (String × (Nat × Nat × Nat × Nat)))
    (b : String) (turn tick : Nat) : List (String × (Nat × Nat × Nat × Nat)) :=
  match lookupA loaded b with
  | some (et, ek, lt, lk) =>
      if lt < turn then upsertA loaded b (et, ek, turn, tick)
      else if lt = turn ∧ lk < tick then upsertA loaded b (et, ek, turn, tick)
      else upsertA loaded b (et, ek, lt, lk)
  | none => loaded ++ [(b, (turn, tick, turn, tick))]

/-- `ORM._nbtt`: allocate a fresh `(branch, turn, tick)` write slot,
raising `HistoryError` when the cursor is behind the recorded frontier.
Inside planning the source additionally checks
`(turn, tick) in plan_ticks[last_plan]`, but that probes a `(turn, tick)`
pair against the integer turn keys of the inner dict, so it never fires
and is not a reachable error. -/
def nbtt (e : Orm) : Except PyErr (Orm × String × Nat × Nat) :=
  if e.turn_end (e.obranch, e.oturn) > allocatedTick e then .error .historyError
  else
    match lookupA e.branches e.obranch with
    | none => .error .keyError
    | some (parent, turn_start, tick_start, turn_end0, _tick_end0) =>
      if e.oturn < turn_end0 then .error .historyError
      else
        .ok ({ e with
          plan_ticks :=
            if e.planning then
              updFun e.plan_ticks e.last_plan
                (assocAppend (e.plan_ticks e.last_plan) e.oturn (allocatedTick e))
            else e.plan_ticks
          plan_ticks_uncommitted :=
            if e.planning then
              e.plan_ticks_uncommitted ++ [(e.last_plan, e.oturn, allocatedTick e)]
            else e.plan_ticks_uncommitted
          time_plan :=
            if e.planning then
              updFun e.time_plan (e.obranch, e.oturn, allocatedTick e)
                (some e.last_plan)
            else e.time_plan
          turn_end_plan :=
            updFun e.turn_end_plan (e.obranch, e.oturn) (some (allocatedTick e))
          branches := upsertA e.branches e.obranch
            (parent, turn_start, tick_start, turn_end0, allocatedTick e)
          loaded := nbttLoaded e.loaded e.obranch e.oturn (allocatedTick e)
          otick := allocatedTick e },
          e.obranch, e.oturn, allocatedTick e)

/-- C2: outside planning, requesting a fresh write slot raises
`HistoryError` whenever the cursor's turn is before the branch's recorded
end turn or the allocated tick is before the recorded end tick of the
`(branch, turn)`; on success the returned slot is the allocated tick at
the cursor's `(branch, turn)`, and both the per-`(branch, turn)` recorded
end (`_turn_end_plan`) and the branch's recorded end tick advance to it. -/
theorem c2_nbtt_frontier (e : Orm) (parent : Option String)
    (ts ks te0 ke0 : Nat)
    (hp : e.planning = false)
    (hb : lookupA e.branches e.obranch = some (parent, ts, ks, te0, ke0)) :
    ((e.oturn < te0 ∨ allocatedTick e < e.turn_end (e.obranch, e.oturn)) →
        nbtt e = .error .historyError)
  ∧ (∀ e2 b t k, nbtt e = .ok (e2, b, t, k) →
      b = e.obranch ∧ t = e.oturn ∧ k = allocatedTick e
        ∧ e2.turn_end_plan (b, t) = some k
        ∧ lookupA e2.branches b = some (parent, ts, ks, te0, k)
        ∧ e2.otick = k
        ∧ ¬(e.oturn < te0)
        ∧ ¬(allocatedTick e < e.turn_end (e.obranch, e.oturn))) := by
  constructor
  · intro h
    unfold nbtt
    by_cases h1 : e.turn_end (e.obranch, e.oturn) > allocatedTick e
    · rw [if_pos h1]
    · rw [if_neg h1, hb]
      dsimp only
      rw [if_pos (by omega)]
  · intro e2 b t k hok
    unfold nbtt at hok
    by_cases h1 : e.turn_end (e.obranch, e.oturn) > allocatedTick e
    · rw [if_pos h1] at hok
      exact absurd hok (by simp)
    · rw [if_neg h1, hb] at hok
      dsimp only at hok
      by_cases h2 : e.oturn < te0
      · rw [if_pos h2] at hok
        exact absurd hok (by simp)
      · rw [if_neg h2] at hok
        simp only [Except.ok.injEq, Prod.mk.injEq] at hok
        obtain ⟨he2, hbq, htq, hkq⟩ := hok
        subst he2 hbq htq hkq
        refine ⟨rfl, rfl, rfl, ?_, ?_, rfl, h2, by omega⟩
        · exact updFun_same e.turn_end_plan (e.obranch, e.oturn) _
        · exact lookupA_upsertA_same e.branches e.obranch _

/-- A state whose branch end turn is ahead of the cursor. -/
def c2orm : Orm := { baseOrm with branches := [("trunk", (none, 0, 0, 3, 0))] }

theorem c2_nbtt_frontier_witness :
    nbtt c2orm = .error .historyError :=
  (c2_nbtt_frontier c2orm none 0 0 3 0 rfl rfl).1 (Or.inl (by decide))

/-! ## delete_plan -/

/-- Membership of a `(turn, tick)` write among a plan's tick records. -/
def ptMem (pt : List (Nat × List Nat)) (trn tck : Nat) : Bool :=
  pt.any (fun p => p.1 == trn && p.2.any (fun t => t == tck))

theorem ptMem_iff {pt : List (Nat × List Nat)} {trn tck : Nat} :
    ptMem pt trn tck = true ↔ ∃ l, (trn, l) ∈ pt ∧ tck ∈ l := by
  simp only [ptMem, List.any_eq_true, beq_iff_eq, Bool.and_eq_true]
  constructor
  · rintro ⟨p, hp, rfl, l, hl, rfl⟩
    exact ⟨p.2, by rw [← show (p.1, p.2) = p from rfl] at hp; exact hp, hl⟩
  · rintro ⟨l, hl, ht⟩
    exact ⟨(trn, l), hl, rfl, tck, ht, rfl⟩

/-- The `to_delete` list computed by `ORM.delete_plan`: the plan's writes
at the cursor turn at or after the cursor tick, and all its writes at
later turns (writes before the cursor are not collected). -/
def toDelete (turn tick : Nat) (pt : List (Nat × List Nat)) : List (Nat × Nat) :=
  pt.flatMap (fun p =>
    if p.1 = turn then
      (p.2.filter (fun tck => tick ≤ tck)).map (fun tck => (p.1, tck))
    else if turn < p.1 then p.2.map (fun tck => (p.1, tck))
    else [])

theorem mem_toDelete {turn tick : Nat} {pt : List (Nat × List Nat)}
    {trn tck : Nat} :
    (trn, tck) ∈ toDelete turn tick pt
      ↔ (∃ l, (trn, l) ∈ pt ∧ tck ∈ l)
        ∧ (turn < trn ∨ (trn = turn ∧ tick ≤ tck)) := by
  unfold toDelete
  rw [List.mem_flatMap]
  constructor
  · rintro ⟨p, hp, hmem⟩
    by_cases h1 : p.1 = turn
    · rw [if_pos h1] at hmem
      rw [List.mem_map] at hmem
      obtain ⟨x, hx, hxe⟩ := hmem
      obtain ⟨hxt, hxk⟩ := Prod.mk.injEq .. ▸ hxe
      rw [List.mem_filter] at hx
      refine ⟨⟨p.2, ?_, by rw [← hxk]; exact hx.1⟩, ?_⟩
      · rw [← hxt, show (p.1, p.2) = p from rfl]; exact hp
      · right
        constructor
        · omega
        · have := hx.2
          simp only [decide_eq_true_eq] at this
          omega
    · rw [if_neg h1] at hmem
      by_cases h2 : turn < p.1
      · rw [if_pos h2] at hmem
        rw [List.mem_map] at hmem
        obtain ⟨x, hx, hxe⟩ := hmem
        obtain ⟨hxt, hxk⟩ := Prod.mk.injEq .. ▸ hxe
        refine ⟨⟨p.2, ?_, by rw [← hxk]; exact hx⟩, by omega⟩
        rw [← hxt, show (p.1, p.2) = p from rfl]; exact hp
      · rw [if_neg h2] at hmem
        exact absurd hmem (List.not_mem_nil _)
  · rintro ⟨⟨l, hl, ht⟩, hq⟩
    refine ⟨(trn, l), hl, ?_⟩
    by_cases h1 : trn = turn
    · rw [if_pos h1]
      rw [List.mem_map]
      refine ⟨tck, ?_, by rw [h1]⟩
      rw [List.mem_filter]
      refine ⟨ht, by simp only [decide_eq_true_eq]; omega⟩
    · rw [if_neg h1, if_pos (by omega)]
      rw [List.mem_map]
      exact ⟨tck, ht, rfl⟩

/-- `plan_ticks[trn].remove(tck)` followed by `del plan_ticks[trn]` when
the turn's tick list empties. -/
def removeTick (pt : List (Nat × List Nat)) (trn tck : Nat) :
    List (Nat × List Nat) :=
  (pt.map (fun p => if p.1 = trn then (p.1, p.2.erase tck) else p)).filter
    (fun p => ¬(p.1 = trn ∧ p.2.isEmpty))

/-- Clearing the caches registered at a coordinate, one `cache.remove`
per registered cache. -/
def clearCaches (L : List CacheName) (coord : String × Nat × Nat) (e : Orm) :
    Orm :=
  L.foldl (fun a c => { a with cacheData := fun c2 key =>
      if c2 = c ∧ key = coord then none else a.cacheData c2 key }) e

theorem clearCaches_eq (L : List CacheName) (coord : String × Nat × Nat)
    (e : Orm) :
    clearCaches L coord e = { e with cacheData := fun c2 key =>
      if c2 ∈ L ∧ key = coord then none else e.cacheData c2 key } := by
  induction L generalizing e with
  | nil =>
      show e = _
      ext1
      all_goals rfl
  | cons c t ih =>
      show clearCaches t coord _ = _
      rw [ih]
      ext1
      all_goals try rfl
      funext c2 key
      by_cases h1 : c2 ∈ t ∧ key = coord
      · simp only [if_pos h1]
        rw [if_pos ⟨List.mem_cons_of_mem c h1.1, h1.2⟩]
      · simp only [if_neg h1]
        by_cases h2 : c2 = c ∧ key = coord
        · simp only [if_pos h2]
          rw [if_pos ⟨by rw [h2.1]; exact List.mem_cons_self c t, h2.2⟩]
        · simp only [if_neg h2]
          rw [if_neg (fun hc => by
            rcases List.mem_cons.mp hc.1 with h | h
            · exact h2 ⟨h, hc.2⟩
            · exact h1 ⟨h, hc.2⟩)]

/-- One iteration of the deletion loop in `ORM.delete_plan` for a
contradicted `(turn, tick)` write: every cache registered at the
coordinate drops its row (`cache.remove`; `cache.deldb` is the external
backend call and omitted), the coordinate leaves `_where_cached` and
`_time_plan`, and the tick leaves the plan's records. -/
def delPlanStep (branch : String) (pid : Nat) (e : Orm) (tt : Nat × Nat) :
    Orm :=
  { clearCaches (e.where_cached (branch, tt.1, tt.2)) (branch, tt.1, tt.2) e with
    where_cached := updFun e.where_cached (branch, tt.1, tt.2) []
    plan_ticks := updFun e.plan_ticks pid
      (removeTick (e.plan_ticks pid) tt.1 tt.2)
    time_plan := updFun e.time_plan (branch, tt.1, tt.2) none }

/-- `ORM.delete_plan`: roll back the portion of a plan at or after the
current cursor (per its docstring, "Delete the portion of a plan that has
yet to occur"), on the current branch. -/
def delete_plan (e : Orm) (pid : Nat) : Orm :=
  (toDelete e.oturn e.otick (e.plan_ticks pid)).foldl
    (delPlanStep e.obranch pid) e

theorem delPlanStep_cacheData (b : String) (pid : Nat) (e : Orm)
    (tt : Nat × Nat) (c : CacheName) (key : String × Nat × Nat) :
    (delPlanStep b pid e tt).cacheData c key
      = if c ∈ e.where_cached (b, tt.1, tt.2) ∧ key = (b, tt.1, tt.2)
        then none else e.cacheData c key := by
  show (clearCaches (e.where_cached (b, tt.1, tt.2)) (b, tt.1, tt.2) e).cacheData c key = _
  rw [clearCaches_eq]

theorem delPlanStep_obranch (b : String) (pid : Nat) (e : Orm) (tt : Nat × Nat) :
    (delPlanStep b pid e tt).obranch = e.obranch := by
  show (clearCaches (e.where_cached (b, tt.1, tt.2)) (b, tt.1, tt.2) e).obranch = _
  rw [clearCaches_eq]

theorem erase_eq_nil_cases {l : List Nat} {a : Nat} (h : l.erase a = []) :
    l = [] ∨ l = [a] := by
  cases l with
  | nil => exact Or.inl rfl
  | cons b t =>
      rw [List.erase_cons] at h
      by_cases hb : (b == a) = true
      · rw [if_pos hb] at h
        subst h
        exact Or.inr (by rw [beq_iff_eq.mp hb])
      · rw [if_neg hb] at h
        exact absurd h (by simp)

theorem mem_removeTick {pt : List (Nat × List Nat)} {trn tck x y : Nat}
    (hkeys : (pt.map (fun p => p.1)).Nodup)
    (hticks : ∀ p ∈ pt, p.2.Nodup) :
    (∃ l, (x, l) ∈ removeTick pt trn tck ∧ y ∈ l)
      ↔ (∃ l, (x, l) ∈ pt ∧ y ∈ l) ∧ ¬(x = trn ∧ y = tck) := by
  induction pt with
  | nil => simp [removeTick]
  | cons p t ih =>
      rw [List.map_cons, List.nodup_cons] at hkeys
      obtain ⟨hpk, hkt⟩ := hkeys
      have hpt : p.2.Nodup := hticks p (List.mem_cons_self p t)
      have htt : ∀ q ∈ t, q.2.Nodup :=
        fun q hq => hticks q (List.mem_cons_of_mem p hq)
      have hketnot : ∀ q ∈ t, q.1 ≠ p.1 := by
        intro q hq hqe
        exact hpk (by rw [← hqe]; exact List.mem_map_of_mem _ hq)
      by_cases hp : p.1 = trn
      · have hmapt : t.map
            (fun q => if q.1 = trn then (q.1, q.2.erase tck) else q) = t := by
          have : t.map (fun q => if q.1 = trn then (q.1, q.2.erase tck) else q)
              = t.map id := by
            apply List.map_congr_left
            intro q hq
            rw [if_neg (fun hc => hketnot q hq (by rw [hc, hp]))]
            rfl
          rw [this, List.map_id]
        have hfilt : t.filter (fun q => ¬(q.1 = trn ∧ q.2.isEmpty)) = t := by
          rw [List.filter_eq_self]
          intro q hq
          rw [decide_eq_true_eq]
          exact fun hc => hketnot q hq (by rw [hc.1, hp])
        by_cases he : (p.2.erase tck).isEmpty = true
        · have hrt : removeTick (p :: t) trn tck = t := by
            unfold removeTick
            rw [List.map_cons, hmapt, if_pos hp,
                List.filter_cons_of_neg (by
                  rw [decide_eq_true_eq]
                  intro hc
                  exact hc ⟨hp, he⟩), hfilt]
          rw [hrt]
          have hp2 : p.2 = [] ∨ p.2 = [tck] :=
            erase_eq_nil_cases (List.isEmpty_iff.mp he)
          constructor
          · rintro ⟨l, hl, hy⟩
            refine ⟨⟨l, List.mem_cons_of_mem p hl, hy⟩, ?_⟩
            rintro ⟨rfl, rfl⟩
            exact hketnot (x, l) hl (by rw [hp])
          · rintro ⟨⟨l, hl, hy⟩, hne⟩
            rcases List.mem_cons.mp hl with heq | hint
            · exfalso
              have hx : x = p.1 := by rw [← heq]
              have hlp : l = p.2 := by rw [← heq]
              rcases hp2 with h2 | h2
              · rw [hlp, h2] at hy
                exact absurd hy (List.not_mem_nil y)
              · rw [hlp, h2] at hy
                rcases List.mem_singleton.mp hy with rfl
                exact hne ⟨by rw [hx, hp], rfl⟩
            · exact ⟨l, hint, hy⟩
        · have hrt : removeTick (p :: t) trn tck
              = (p.1, p.2.erase tck) :: t := by
            unfold removeTick
            rw [List.map_cons, hmapt, if_pos hp,
                List.filter_cons_of_pos (by
                  rw [decide_eq_true_eq]
                  intro hc
                  exact he hc.2), hfilt]
          rw [hrt]
          constructor
          · rintro ⟨l, hl, hy⟩
            rcases List.mem_cons.mp hl with heq | hint
            · have hx : x = p.1 := by rw [show x = (x, l).1 from rfl, heq]
              have hlp : l = p.2.erase tck := by
                rw [show l = (x, l).2 from rfl, heq]
              rw [hlp] at hy
              obtain ⟨hyne, hyp⟩ := (List.Nodup.mem_erase_iff hpt).mp hy
              refine ⟨⟨p.2, ?_, hyp⟩, fun hc => hyne hc.2⟩
              rw [hx]
              exact List.mem_cons_self p t
            · refine ⟨⟨l, List.mem_cons_of_mem p hint, hy⟩, ?_⟩
              rintro ⟨rfl, rfl⟩
              exact hketnot (x, l) hint (by rw [hp])
          · rintro ⟨⟨l, hl, hy⟩, hne⟩
            rcases List.mem_cons.mp hl with heq | hint
            · have hx : x = p.1 := by rw [show x = (x, l).1 from rfl, heq]
              have hlp : l = p.2 := by rw [show l = (x, l).2 from rfl, heq]
              have hyne : y ≠ tck := by
                intro hc
                exact hne ⟨by rw [hx, hp], hc⟩
              refine ⟨p.2.erase tck, ?_, (List.Nodup.mem_erase_iff hpt).mpr
                ⟨hyne, by rw [← hlp]; exact hy⟩⟩
              rw [hx]
              exact List.mem_cons_self _ _
            · exact ⟨l, List.mem_cons_of_mem _ hint, hy⟩
      · have hrt : removeTick (p :: t) trn tck = p :: removeTick t trn tck := by
          unfold removeTick
          rw [List.map_cons, if_neg hp,
              List.filter_cons_of_pos (by
                rw [decide_eq_true_eq]
                exact fun hc => hp hc.1)]
        rw [hrt]
        constructor
        · rintro ⟨l, hl, hy⟩
          rcases List.mem_cons.mp hl with heq | hint
          · have hx : x = p.1 := by rw [show x = (x, l).1 from rfl, heq]
            have hlp : l = p.2 := by rw [show l = (x, l).2 from rfl, heq]
            refine ⟨⟨l, ?_, hy⟩, fun hc => hp (by rw [← hx, hc.1])⟩
            rw [hx, hlp]
            exact List.mem_cons_self p t
          · obtain ⟨⟨l2, hl2, hy2⟩, hne⟩ := (ih hkt htt).mp ⟨l, hint, hy⟩
            exact ⟨⟨l2, List.mem_cons_of_mem p hl2, hy2⟩, hne⟩
        · rintro ⟨⟨l, hl, hy⟩, hne⟩
          rcases List.mem_cons.mp hl with heq | hint
          · have hx : x = p.1 := by rw [show x = (x, l).1 from rfl, heq]
            have hlp : l = p.2 := by rw [show l = (x, l).2 from rfl, heq]
            exact ⟨l, by rw [hx, hlp]; exact List.mem_cons_self p _, hy⟩
          · obtain ⟨l2, hl2, hy2⟩ := (ih hkt htt).mpr ⟨⟨l, hint, hy⟩, hne⟩
            exact ⟨l2, List.mem_cons_of_mem p hl2, hy2⟩

theorem removeTick_keys_nodup {pt : List (Nat × List Nat)} {trn tck : Nat}
    (hkeys : (pt.map (fun p => p.1)).Nodup) :
    ((removeTick pt trn tck).map (fun p => p.1)).Nodup := by
  have h1 : (pt.map (fun p => if p.1 = trn then (p.1, p.2.erase tck) else p)).map
      (fun p => p.1) = pt.map (fun p => p.1) := by
    rw [List.map_map]
    apply List.map_congr_left
    intro p _
    by_cases hp : p.1 = trn
    · simp [hp]
    · simp [hp]
  have h2 : (removeTick pt trn tck).Sublist
      (pt.map (fun p => if p.1 = trn then (p.1, p.2.erase tck) else p)) :=
    List.filter_sublist _
  exact List.Nodup.sublist (h2.map (fun p => p.1)) (h1 ▸ hkeys)

theorem removeTick_ticks_nodup {pt : List (Nat × List Nat)} {trn tck : Nat}
    (hticks : ∀ p ∈ pt, p.2.Nodup) :
    ∀ p ∈ removeTick pt trn tck, p.2.Nodup := by
  intro q hq
  have hq2 := List.mem_of_mem_filter hq
  rw [List.mem_map] at hq2
  obtain ⟨p, hp, hpe⟩ := hq2
  by_cases hc : p.1 = trn
  · rw [if_pos hc] at hpe
    rw [← hpe]
    exact List.Nodup.erase tck (hticks p hp)
  · rw [if_neg hc] at hpe
    rw [← hpe]
    exact hticks p hp

/-- Repeated `removeTick` along a deletion list. -/
def foldRT (td : List (Nat × Nat)) (pt : List (Nat × List Nat)) :
    List (Nat × List Nat) :=
  td.foldl (fun acc d => removeTick acc d.1 d.2) pt

theorem foldRT_mem (td : List (Nat × Nat)) (pt : List (Nat × List Nat))
    (x y : Nat)
    (hkeys : (pt.map (fun p => p.1)).Nodup)
    (hticks : ∀ p ∈ pt, p.2.Nodup) :
    (∃ l, (x, l) ∈ foldRT td pt ∧ y ∈ l)
      ↔ (∃ l, (x, l) ∈ pt ∧ y ∈ l) ∧ (x, y) ∉ td := by
  induction td generalizing pt with
  | nil => simp [foldRT]
  | cons d td ih =>
      show (∃ l, (x, l) ∈ foldRT td (removeTick pt d.1 d.2) ∧ y ∈ l) ↔ _
      rw [ih (removeTick pt d.1 d.2) (removeTick_keys_nodup hkeys)
            (removeTick_ticks_nodup hticks),
          mem_removeTick hkeys hticks]
      constructor
      · rintro ⟨⟨hmem, hne⟩, hnd⟩
        refine ⟨hmem, ?_⟩
        intro hc
        rcases List.mem_cons.mp hc with hc1 | hc2
        · exact hne ⟨congrArg Prod.fst hc1, congrArg Prod.snd hc1⟩
        · exact hnd hc2
      · rintro ⟨hmem, hnd⟩
        refine ⟨⟨hmem, ?_⟩, ?_⟩
        · rintro ⟨rfl, rfl⟩
          exact hnd (List.mem_cons_self _ _)
        · exact fun hc => hnd (List.mem_cons_of_mem d hc)

theorem foldDPS_plan_ticks (b : String) (pid : Nat) (td : List (Nat × Nat))
    (s : Orm) :
    ((td.foldl (delPlanStep b pid) s).plan_ticks pid)
      = foldRT td (s.plan_ticks pid) := by
  induction td generalizing s with
  | nil => rfl
  | cons d td ih =>
      show ((td.foldl (delPlanStep b pid) (delPlanStep b pid s d)).plan_ticks pid) = _
      rw [ih (delPlanStep b pid s d)]
      show foldRT td (updFun s.plan_ticks pid
        (removeTick (s.plan_ticks pid) d.1 d.2) pid) = _
      rw [updFun_same]
      rfl

/-- The cache/`_where_cached` consistency invariant on a branch: a cached
row is always registered in `_where_cached` at its coordinate. -/
def ConsOK (b : String) (s : Orm) : Prop :=
  ∀ c trn tck, (s.cacheData c (b, trn, tck)).isSome = true →
    c ∈ s.where_cached (b, trn, tck)

theorem delPlanStep_consOK {b : String} {pid : Nat} {s : Orm} {d : Nat × Nat}
    (h : ConsOK b s) : ConsOK b (delPlanStep b pid s d) := by
  intro c trn tck hsome
  rw [delPlanStep_cacheData] at hsome
  show updFun s.where_cached (b, d.1, d.2) [] (b, trn, tck) |> (c ∈ ·)
  by_cases hk : ((b, trn, tck) : String × Nat × Nat) = (b, d.1, d.2)
  · exfalso
    by_cases hm : c ∈ s.where_cached (b, d.1, d.2)
    · rw [if_pos ⟨hm, hk⟩] at hsome
      exact Bool.false_ne_true hsome
    · rw [if_neg (fun hc => hm hc.1)] at hsome
      exact hm (hk ▸ h c trn tck hsome)
  · rw [if_neg (fun hc => hk hc.2)] at hsome
    show c ∈ updFun s.where_cached (b, d.1, d.2) [] (b, trn, tck)
    rw [updFun_other _ _ _ _ hk]
    exact h c trn tck hsome

theorem delPlanStep_clears {b : String} {pid : Nat} {s : Orm} {d : Nat × Nat}
    (h : ConsOK b s) :
    (delPlanStep b pid s d).time_plan (b, d.1, d.2) = none
  ∧ (delPlanStep b pid s d).where_cached (b, d.1, d.2) = []
  ∧ ∀ c, (delPlanStep b pid s d).cacheData c (b, d.1, d.2) = none := by
  refine ⟨updFun_same _ _ _, updFun_same _ _ _, ?_⟩
  intro c
  rw [delPlanStep_cacheData]
  by_cases hm : c ∈ s.where_cached (b, d.1, d.2)
  · rw [if_pos ⟨hm, rfl⟩]
  · rw [if_neg (fun hc => hm hc.1)]
    by_cases hsome : (s.cacheData c (b, d.1, d.2)).isSome = true
    · exact absurd (h c d.1 d.2 hsome) hm
    · exact Option.not_isSome_iff_eq_none.mp hsome

theorem delPlanStep_keeps_none {b : String} {pid : Nat} {s : Orm}
    {d : Nat × Nat} {key : String × Nat × Nat}
    (h1 : s.time_plan key = none) (h2 : s.where_cached key = [])
    (h3 : ∀ c, s.cacheData c key = none) :
    (delPlanStep b pid s d).time_plan key = none
  ∧ (delPlanStep b pid s d).where_cached key = []
  ∧ ∀ c, (delPlanStep b pid s d).cacheData c key = none := by
  refine ⟨?_, ?_, ?_⟩
  · show updFun s.time_plan (b, d.1, d.2) none key = none
    by_cases hk : key = (b, d.1, d.2)
    · rw [hk, updFun_same]
    · rw [updFun_other _ _ _ _ hk]
      exact h1
  · show updFun s.where_cached (b, d.1, d.2) [] key = []
    by_cases hk : key = (b, d.1, d.2)
    · rw [hk, updFun_same]
    · rw [updFun_other _ _ _ _ hk]
      exact h2
  · intro c
    rw [delPlanStep_cacheData]
    by_cases hc : c ∈ s.where_cached (b, d.1, d.2) ∧ key = (b, d.1, d.2)
    · rw [if_pos hc]
    · rw [if_neg hc]
      exact h3 c

theorem foldDPS_keeps_none (b : String) (pid : Nat) (td : List (Nat × Nat)) :
    ∀ (s : Orm) (key : String × Nat × Nat),
      s.time_plan key = none → s.where_cached key = [] →
      (∀ c, s.cacheData c key = none) →
      (td.foldl (delPlanStep b pid) s).time_plan key = none
    ∧ (td.foldl (delPlanStep b pid) s).where_cached key = []
    ∧ ∀ c, (td.foldl (delPlanStep b pid) s).cacheData c key = none := by
  induction td with
  | nil =>
      intro s key h1 h2 h3
      exact ⟨h1, h2, h3⟩
  | cons d0 td ih =>
      intro s key h1 h2 h3
      have hkeep := @delPlanStep_keeps_none b pid s d0 key h1 h2 h3
      exact ih (delPlanStep b pid s d0) key hkeep.1 hkeep.2.1 hkeep.2.2

theorem foldDPS_cleared (b : String) (pid : Nat) (td : List (Nat × Nat)) :
    ∀ (s : Orm), ConsOK b s → ∀ d ∈ td,
      (td.foldl (delPlanStep b pid) s).time_plan (b, d.1, d.2) = none
    ∧ (td.foldl (delPlanStep b pid) s).where_cached (b, d.1, d.2) = []
    ∧ ∀ c, (td.foldl (delPlanStep b pid) s).cacheData c (b, d.1, d.2) = none := by
  induction td with
  | nil =>
      intro s _ d hd
      exact absurd hd (List.not_mem_nil d)
  | cons d0 td ih =>
      intro s hcons d hd
      rcases List.mem_cons.mp hd with rfl | hdt
      · obtain ⟨h1, h2, h3⟩ := @delPlanStep_clears b pid s d hcons
        exact foldDPS_keeps_none b pid td (delPlanStep b pid s d) _ h1 h2 h3
      · exact ih (delPlanStep b pid s d0) (delPlanStep_consOK hcons) d hdt

/-- A state whose cursor (turn 1) is past a plan write at (turn 0, tick 1). -/
def c3orm : Orm := { baseOrm with
  oturn := 1
  plan_ticks := fun p => if p = 1 then [(0, [1])] else []
  time_plan := fun key => if key = ("trunk", 0, 1) then some 1 else none
  where_cached := fun key => if key = ("trunk", 0, 1) then [CacheName.nodes] else []
  cacheData := fun c key =>
    if c = CacheName.nodes ∧ key = ("trunk", 0, 1) then some [1] else none }

/-- C3 counterexample: with the cursor at turn 1 and plan 1 holding a
write at (turn 0, tick 1), `delete_plan` removes nothing — the write stays
in the plan's tick records and in the cache, because the source only
collects writes at or after the cursor ("Delete the portion of a plan that
has yet to occur"). -/
theorem c3_delete_plan_counterexample :
    (delete_plan c3orm 1).plan_ticks 1 = [(0, [1])]
  ∧ (delete_plan c3orm 1).cacheData CacheName.nodes ("trunk", 0, 1) = some [1]
  ∧ (delete_plan c3orm 1).time_plan ("trunk", 0, 1) = some 1 := by
  exact ⟨rfl, rfl, rfl⟩

/-- C3 amended: `delete_plan` retracts exactly the portion of the plan at
or after the current cursor on the current branch — a write survives in
the plan's tick records iff it was there and is strictly before the
cursor, and every retracted write also leaves `_time_plan`,
`_where_cached` and the caches — rather than the whole plan regardless of
the cursor. -/
theorem c3_delete_plan_amended (e : Orm) (pid : Nat)
    (hkeys : ((e.plan_ticks pid).map (fun p => p.1)).Nodup)
    (hticks : ∀ p ∈ e.plan_ticks pid, p.2.Nodup)
    (hcons : ConsOK e.obranch e) :
    (∀ trn tck,
        ptMem ((delete_plan e pid).plan_ticks pid) trn tck = true
          ↔ ptMem (e.plan_ticks pid) trn tck = true
              ∧ (trn < e.oturn ∨ (trn = e.oturn ∧ tck < e.otick)))
  ∧ (∀ trn tck, ptMem (e.plan_ticks pid) trn tck = true →
      (e.oturn < trn ∨ (trn = e.oturn ∧ e.otick ≤ tck)) →
        (delete_plan e pid).time_plan (e.obranch, trn, tck) = none
        ∧ (delete_plan e pid).where_cached (e.obranch, trn, tck) = []
        ∧ ∀ c, (delete_plan e pid).cacheData c (e.obranch, trn, tck) = none) := by
  constructor
  · intro trn tck
    rw [ptMem_iff, ptMem_iff]
    unfold delete_plan
    rw [foldDPS_plan_ticks, foldRT_mem _ _ _ _ hkeys hticks]
    constructor
    · rintro ⟨hmem, hnd⟩
      refine ⟨hmem, ?_⟩
      by_contra hk
      exact hnd (mem_toDelete.mpr ⟨hmem, by omega⟩)
    · rintro ⟨hmem, hkept⟩
      refine ⟨hmem, ?_⟩
      intro hc
      have := (mem_toDelete.mp hc).2
      omega
  · intro trn tck hmem hdel
    have hin : (trn, tck) ∈ toDelete e.oturn e.otick (e.plan_ticks pid) :=
      mem_toDelete.mpr ⟨ptMem_iff.mp hmem, hdel⟩
    exact foldDPS_cleared e.obranch pid _ e hcons (trn, tck) hin

/-- A state with one plan write at (turn 2, tick 0), after the cursor. -/
def c3wit : Orm := { baseOrm with
  plan_ticks := fun p => if p = 1 then [(2, [0])] else []
  time_plan := fun key => if key = ("trunk", 2, 0) then some 1 else none
  where_cached := fun key => if key = ("trunk", 2, 0) then [CacheName.nodes] else []
  cacheData := fun c key =>
    if c = CacheName.nodes ∧ key = ("trunk", 2, 0) then some [1] else none }

theorem c3_delete_plan_amended_witness :
    (delete_plan c3wit 1).time_plan ("trunk", 2, 0) = none
  ∧ (delete_plan c3wit 1).where_cached ("trunk", 2, 0) = []
  ∧ ∀ c, (delete_plan c3wit 1).cacheData c ("trunk", 2, 0) = none := by
  have hcons : ConsOK c3wit.obranch c3wit := by
    intro c trn tck hsome
    have hob : c3wit.obranch = "trunk" := rfl
    rw [hob] at hsome ⊢
    by_cases h : c = CacheName.nodes
        ∧ (("trunk", trn, tck) : String × Nat × Nat) = ("trunk", 2, 0)
    · have hw : c3wit.where_cached ("trunk", trn, tck)
          = if (("trunk", trn, tck) : String × Nat × Nat) = ("trunk", 2, 0)
            then [CacheName.nodes] else [] := rfl
      show c ∈ c3wit.where_cached ("trunk", trn, tck)
      rw [hw, if_pos h.2, h.1]
      exact List.mem_singleton.mpr rfl
    · have hd : c3wit.cacheData c ("trunk", trn, tck)
          = if c = CacheName.nodes
              ∧ (("trunk", trn, tck) : String × Nat × Nat) = ("trunk", 2, 0)
            then some [1] else none := rfl
      rw [hd, if_neg h] at hsome
      exact absurd hsome (by simp)
  exact (c3_delete_plan_amended c3wit 1 (by decide) (by decide) hcons).2
    2 0 (by decide) (by decide)

/-! ## The delta engine

`ORM.get_turn_delta` and `ORM.get_delta`.  A delta is the nested patch
dict of the source, flattened into one association list per section, with
keys that mirror the nesting (for a simple graph the edge index is dropped
from the key, exactly as `delta['edges'][orig][dest]` drops it). -/

@[ext]
structure Delta where
  gv : List ((String × String) × Val)
  nodes : List ((String × String) × Bool)
  node_val : List ((String × String × String) × Val)
  edges : List ((String × String × String × Option Nat) × Bool)
  edge_val : List ((String × String × String × Option Nat × String) × Val)
  deriving DecidableEq, Repr

/-- The empty delta. -/
def emptyDelta : Delta := ⟨[], [], [], [], []⟩

/-- `setgraphval`: record a graph attribute change. -/
def setgraphval (d : Delta) : GvRow → Delta
  | (g, k, v) => { d with gv := upsertA d.gv (g, k) v }

/-- `setnode`: record a node's creation or deletion (no guard). -/
def setnode (d : Delta) : NRow → Delta
  | (g, n, ex) => { d with nodes := upsertA d.nodes (g, n) ex }

/-- `setnodeval`: record a node attribute change, suppressed when the
same delta already records the node as deleted.  `get_turn_delta` inlines
the same logic in its `node_val` loop. -/
def setnodeval (d : Delta) : NvRow → Delta
  | (g, n, k, v) =>
    if lookupA d.nodes (g, n) = some false then d
    else { d with node_val := upsertA d.node_val (g, n, k) v }

/-- The edge key: `(orig, dest, idx)` for a multigraph, `(orig, dest)`
(index dropped) otherwise. -/
def edgeKey (isMulti : String → Bool) (g o dst : String) (idx : Nat) :
    String × String × String × Option Nat :=
  (g, o, dst, if isMulti g then some idx else none)

/-- `setedge`: record an edge's creation or deletion (no guard). -/
def setedge (isMulti : String → Bool) (d : Delta) : ERow → Delta
  | (g, o, dst, i, ex) =>
    { d with edges := upsertA d.edges (edgeKey isMulti g o dst i) ex }

/-- `setedgeval`: record an edge attribute change, suppressed when the
same delta already records the edge as deleted. -/
def setedgeval (isMulti : String → Bool) (d : Delta) : EvRow → Delta
  | (g, o, dst, i, k, v) =>
    if lookupA d.edges (edgeKey isMulti g o dst i) = some false then d
    else { d with edge_val :=
      (upsertA d.edge_val (g, o, dst, (if isMulti g then some i else none), k) v) }

/-- The inline `edges` loop of `get_turn_delta`: unlike `setedge`, it
skips the update when the delta already records the edge as deleted. -/
def turnDeltaEdge (isMulti : String → Bool) (d : Delta) : ERow → Delta
  | (g, o, dst, i, ex) =>
    if lookupA d.edges (edgeKey isMulti g o dst i) = some false then d
    else { d with edges := upsertA d.edges (edgeKey isMulti g o dst i) ex }

/-- The inline `edge_val` loop of `get_turn_delta`: unlike `setedgeval`,
it has no deleted-edge guard. -/
def turnDeltaEdgeVal (isMulti : String → Bool) (d : Delta) : EvRow → Delta
  | (g, o, dst, i, k, v) =>
    { d with edge_val :=
      (upsertA d.edge_val (g, o, dst, (if isMulti g then some i else none), k) v) }

/-- The body of `get_turn_delta` on the already-sliced per-section rows:
the five sections are applied in source order (graph_val, nodes, node_val,
edges, edge_val). -/
def buildTurnDeltaRows (isMulti : String → Bool) (gvRows : List GvRow)
    (nRows : List NRow) (nvRows : List NvRow) (eRows : List ERow)
    (evRows : List EvRow) : Delta :=
  evRows.foldl (turnDeltaEdgeVal isMulti)
    (eRows.foldl (turnDeltaEdge isMulti)
      (nvRows.foldl setnodeval
        (nRows.foldl setnode
          (gvRows.foldl setgraphval emptyDelta))))

/-- The cross-turn body of `get_delta`: the `update_window` /
`update_backward_window` helpers live in `window.py`, absent from the
sources; modelled from the spec, they apply every settings row inside the
window, per section in source order, through the `set*` functions. -/
def crossDeltaRows (isMulti : String → Bool) (gvRows : List GvRow)
    (nRows : List NRow) (nvRows : List NvRow) (eRows : List ERow)
    (evRows : List EvRow) : Delta :=
  evRows.foldl (setedgeval isMulti)
    (eRows.foldl (setedge isMulti)
      (nvRows.foldl setnodeval
        (nRows.foldl setnode
          (gvRows.foldl setgraphval emptyDelta))))

/-- The `settings[branch][turn][tick_from:tick_to]` slice of one
section: nothing when the branch or turn is absent. -/
def rowsOf {ρ : Type} (sect : Option (List (Nat × ρ))) (lo hi : Nat) :
    List ρ :=
  match sect with
  | none => []
  | some rows => sliceVals rows (some lo) (some hi)

/-- The body of `get_turn_delta` after argument resolution: a forward
window (`tick_from < tick_to`) reads the settings projections with the
upper bound bumped to include `tick_to`; otherwise the presettings
projections are read over the reversed window. -/
def buildTurnDelta (e : Orm) (branch : String) (turn : Nat)
    (tick_from tick_to : Nat) : Delta :=
  if tick_from < tick_to then
    buildTurnDeltaRows e.multiGraph
      (rowsOf (e.gvSettings (branch, turn)) tick_from (tick_to + 1))
      (rowsOf (e.nSettings (branch, turn)) tick_from (tick_to + 1))
      (rowsOf (e.nvSettings (branch, turn)) tick_from (tick_to + 1))
      (rowsOf (e.eSettings (branch, turn)) tick_from (tick_to + 1))
      (rowsOf (e.evSettings (branch, turn)) tick_from (tick_to + 1))
  else
    buildTurnDeltaRows e.multiGraph
      (rowsOf (e.gvPresettings (branch, turn)) tick_from tick_to)
      (rowsOf (e.nPresettings (branch, turn)) tick_from tick_to)
      (rowsOf (e.nvPresettings (branch, turn)) tick_from tick_to)
      (rowsOf (e.ePresettings (branch, turn)) tick_from tick_to)
      (rowsOf (e.evPresettings (branch, turn)) tick_from tick_to)

/-- Python's `arg or current` for a string argument: `None` and the empty
string are both falsy. -/
def orFalsyS (arg : Option String) (cur : String) : String :=
  match arg with
  | none => cur
  | some s => if s = "" then cur else s

/-- Python's `arg or current` for an integer argument: `None` and `0` are
both falsy. -/
def orFalsyN (arg : Option Nat) (cur : Nat) : Nat :=
  match arg with
  | none => cur
  | some n => if n = 0 then cur else n

/-- `ORM.get_turn_delta`: `branch`, `turn` and `tick_to` fall back to the
cursor through Python's `or` (so any falsy argument, not just an omitted
one, is replaced); `tick_from` is an ordinary default parameter. -/
def get_turn_delta (e : Orm) (branch : Option String) (turn : Option Nat)
    (tick_from : Nat) (tick_to : Option Nat) : Delta :=
  buildTurnDelta e (orFalsyS branch e.obranch) (orFalsyN turn e.oturn)
    tick_from (orFalsyN tick_to e.otick)

/-- `ORM.get_delta`: a same-turn request delegates to `get_turn_delta`;
across turns the per-section window rows (modelled as explicit arguments,
see `crossDeltaRows`) are applied through the `set*` functions. -/
def get_delta (e : Orm) (branch : String)
    (turn_from tick_from turn_to tick_to : Nat) (gvRows : List GvRow)
    (nRows : List NRow) (nvRows : List NvRow) (eRows : List ERow)
    (evRows : List EvRow) : Delta :=
  if turn_from = turn_to then
    get_turn_delta e (some branch) (some turn_from) tick_from (some tick_to)
  else
    crossDeltaRows e.multiGraph gvRows nRows nvRows eRows evRows

/-- A state whose turn-5 settings hold an edge attribute write at tick 0
followed by the edge's deletion at tick 1. -/
def c5orm : Orm := { baseOrm with
  eSettings := fun key =>
    if key = ("trunk", 5) then some [(1, ("g", "o", "d", 0, false))] else none
  evSettings := fun key =>
    if key = ("trunk", 5) then some [(0, ("g", "o", "d", 0, "w", 7))] else none }

/-- C5 failing input: a same-turn delta over an edge deleted at tick 1
with an attribute write at tick 0 reports both `edges → False` and the
stale `edge_val` — the inline `edge_val` loop of `get_turn_delta` has no
deleted-edge guard, unlike `setedgeval` on the cross-turn path and unlike
the `node_val` loop beside it. -/
theorem c5_edge_val_not_suppressed :
    lookupA (get_delta c5orm "trunk" 5 0 5 1 [] [] [] [] []).edges
        ("g", "o", "d", none) = some false
  ∧ lookupA (get_delta c5orm "trunk" 5 0 5 1 [] [] [] [] []).edge_val
        ("g", "o", "d", none, "w") = some 7 := by
  constructor <;> decide

theorem foldl_preserves {σ ρ : Type} (f : σ → ρ → σ) (P : σ → Prop)
    (hstep : ∀ s r, P s → P (f s r)) :
    ∀ (rows : List ρ) (s : σ), P s → P (rows.foldl f s) := by
  intro rows
  induction rows with
  | nil => exact fun s h => h
  | cons r t ih => exact fun s h => ih (f s r) (hstep s r h)

/-- The deleted-entity suppression invariant for nodes. -/
def NodeInv (d : Delta) : Prop :=
  ∀ g n, lookupA d.nodes (g, n) = some false →
    ∀ k, lookupA d.node_val (g, n, k) = none

/-- The deleted-entity suppression invariant for edges. -/
def EdgeInv (d : Delta) : Prop :=
  ∀ g o dst i, lookupA d.edges (g, o, dst, i) = some false →
    ∀ k, lookupA d.edge_val (g, o, dst, i, k) = none

theorem setnodeval_nodeInv (d : Delta) (r : NvRow) (h : NodeInv d) :
    NodeInv (setnodeval d r) := by
  rcases r with ⟨g, n, k, v⟩
  by_cases hg : lookupA d.nodes (g, n) = some false
  · simp only [setnodeval, if_pos hg]
    exact h
  · simp only [setnodeval, if_neg hg]
    intro g2 n2 hfalse k2
    show lookupA (upsertA d.node_val (g, n, k) v) (g2, n2, k2) = none
    by_cases hk : ((g2, n2, k2) : String × String × String) = (g, n, k)
    · exfalso
      have h1 : g2 = g := congrArg (fun p => p.1) hk
      have h2 : n2 = n := congrArg (fun p => p.2.1) hk
      rw [h1, h2] at hfalse
      exact hg hfalse
    · rw [lookupA_upsertA_other _ _ _ _ hk]
      exact h g2 n2 hfalse k2

theorem setedgeval_edgeInv (isMulti : String → Bool) (d : Delta) (r : EvRow)
    (h : EdgeInv d) : EdgeInv (setedgeval isMulti d r) := by
  rcases r with ⟨g, o, dst, i, k, v⟩
  by_cases hg : lookupA d.edges (edgeKey isMulti g o dst i) = some false
  · simp only [setedgeval, if_pos hg]
    exact h
  · simp only [setedgeval, if_neg hg]
    intro g2 o2 d2 i2 hfalse k2
    show lookupA (upsertA d.edge_val
      (g, o, dst, (if isMulti g then some i else none), k) v)
      (g2, o2, d2, i2, k2) = none
    by_cases hk : ((g2, o2, d2, i2, k2) : String × String × String × Option Nat × String)
        = (g, o, dst, (if isMulti g then some i else none), k)
    · exfalso
      have h1 : g2 = g := congrArg (fun p => p.1) hk
      have h2 : o2 = o := congrArg (fun p => p.2.1) hk
      have h3 : d2 = dst := congrArg (fun p => p.2.2.1) hk
      have h4 : i2 = (if isMulti g then some i else none) :=
        congrArg (fun p => p.2.2.2.1) hk
      rw [h1, h2, h3, h4] at hfalse
      exact hg hfalse
    · rw [lookupA_upsertA_other _ _ _ _ hk]
      exact h g2 o2 d2 i2 hfalse k2

theorem turnDeltaEdgeVal_keeps (isMulti : String → Bool) (d : Delta)
    (r : EvRow) :
    (turnDeltaEdgeVal isMulti d r).nodes = d.nodes
  ∧ (turnDeltaEdgeVal isMulti d r).node_val = d.node_val := by
  rcases r with ⟨g, o, dst, i, k, v⟩
  exact ⟨rfl, rfl⟩

theorem turnDeltaEdge_keeps (isMulti : String → Bool) (d : Delta) (r : ERow) :
    (turnDeltaEdge isMulti d r).nodes = d.nodes
  ∧ (turnDeltaEdge isMulti d r).node_val = d.node_val := by
  rcases r with ⟨g, o, dst, i, ex⟩
  by_cases hg : lookupA d.edges (edgeKey isMulti g o dst i) = some false
  · simp [turnDeltaEdge, hg]
  · simp [turnDeltaEdge, hg]

theorem setedge_keeps (isMulti : String → Bool) (d : Delta) (r : ERow) :
    (setedge isMulti d r).nodes = d.nodes
  ∧ (setedge isMulti d r).node_val = d.node_val := by
  rcases r with ⟨g, o, dst, i, ex⟩
  exact ⟨rfl, rfl⟩

theorem setedgeval_keeps (isMulti : String → Bool) (d : Delta) (r : EvRow) :
    (setedgeval isMulti d r).nodes = d.nodes
  ∧ (setedgeval isMulti d r).node_val = d.node_val := by
  rcases r with ⟨g, o, dst, i, k, v⟩
  by_cases hg : lookupA d.edges (edgeKey isMulti g o dst i) = some false
  · simp [setedgeval, hg]
  · simp [setedgeval, hg]

theorem nodeInv_of_keeps {d : Delta} {d2 : Delta} (h : NodeInv d)
    (hn : d2.nodes = d.nodes) (hv : d2.node_val = d.node_val) : NodeInv d2 := by
  intro g n hfalse k
  rw [hv]
  rw [hn] at hfalse
  exact h g n hfalse k

theorem foldl_setgraphval_node_val (rows : List GvRow) :
    ∀ d : Delta, (rows.foldl setgraphval d).node_val = d.node_val
      ∧ (rows.foldl setgraphval d).nodes = d.nodes
      ∧ (rows.foldl setgraphval d).edges = d.edges
      ∧ (rows.foldl setgraphval d).edge_val = d.edge_val := by
  induction rows with
  | nil => exact fun d => ⟨rfl, rfl, rfl, rfl⟩
  | cons r t ih =>
      intro d
      have hr : (setgraphval d r).node_val = d.node_val
          ∧ (setgraphval d r).nodes = d.nodes
          ∧ (setgraphval d r).edges = d.edges
          ∧ (setgraphval d r).edge_val = d.edge_val := by
        rcases r with ⟨g, k, v⟩
        exact ⟨rfl, rfl, rfl, rfl⟩
      obtain ⟨h1, h2, h3, h4⟩ := ih (setgraphval d r)
      exact ⟨h1.trans hr.1, h2.trans hr.2.1, h3.trans hr.2.2.1,
        h4.trans hr.2.2.2⟩

theorem foldl_setnode_others (rows : List NRow) :
    ∀ d : Delta, (rows.foldl setnode d).node_val = d.node_val
      ∧ (rows.foldl setnode d).edges = d.edges
      ∧ (rows.foldl setnode d).edge_val = d.edge_val := by
  induction rows with
  | nil => exact fun d => ⟨rfl, rfl, rfl⟩
  | cons r t ih =>
      intro d
      have hr : (setnode d r).node_val = d.node_val
          ∧ (setnode d r).edges = d.edges
          ∧ (setnode d r).edge_val = d.edge_val := by
        rcases r with ⟨g, n, ex⟩
        exact ⟨rfl, rfl, rfl⟩
      obtain ⟨h1, h2, h3⟩ := ih (setnode d r)
      exact ⟨h1.trans hr.1, h2.trans hr.2.1, h3.trans hr.2.2⟩

theorem foldl_setnodeval_others (rows : List NvRow) :
    ∀ d : Delta, (rows.foldl setnodeval d).nodes = d.nodes
      ∧ (rows.foldl setnodeval d).edges = d.edges
      ∧ (rows.foldl setnodeval d).edge_val = d.edge_val := by
  induction rows with
  | nil => exact fun d => ⟨rfl, rfl, rfl⟩
  | cons r t ih =>
      intro d
      have hr : (setnodeval d r).nodes = d.nodes
          ∧ (setnodeval d r).edges = d.edges
          ∧ (setnodeval d r).edge_val = d.edge_val := by
        rcases r with ⟨g, n, k, v⟩
        by_cases hg : lookupA d.nodes (g, n) = some false
        · simp [setnodeval, hg]
        · simp [setnodeval, hg]
      obtain ⟨h1, h2, h3⟩ := ih (setnodeval d r)
      exact ⟨h1.trans hr.1, h2.trans hr.2.1, h3.trans hr.2.2⟩

theorem foldl_setedge_edge_val (isMulti : String → Bool) (rows : List ERow) :
    ∀ d : Delta, (rows.foldl (setedge isMulti) d).edge_val = d.edge_val := by
  induction rows with
  | nil => exact fun d => rfl
  | cons r t ih =>
      intro d
      have hr : (setedge isMulti d r).edge_val = d.edge_val := by
        rcases r with ⟨g, o, dst, i, ex⟩
        rfl
      exact (ih (setedge isMulti d r)).trans hr

theorem foldl_turnDeltaEdge_edge_val (isMulti : String → Bool)
    (rows : List ERow) :
    ∀ d : Delta, (rows.foldl (turnDeltaEdge isMulti) d).edge_val = d.edge_val := by
  induction rows with
  | nil => exact fun d => rfl
  | cons r t ih =>
      intro d
      have hr : (turnDeltaEdge isMulti d r).edge_val = d.edge_val := by
        rcases r with ⟨g, o, dst, i, ex⟩
        by_cases hg : lookupA d.edges (edgeKey isMulti g o dst i) = some false
        · simp [turnDeltaEdge, hg]
        · simp [turnDeltaEdge, hg]
      exact (ih (turnDeltaEdge isMulti d r)).trans hr

/-- Supporting: the cross-turn path of `get_delta` (the `set*` functions
under `update_window`) does satisfy the claimed suppression, both for
nodes and for edges. -/
theorem cross_delta_suppresses (isMulti : String → Bool) (gvRows : List GvRow)
    (nRows : List NRow) (nvRows : List NvRow) (eRows : List ERow)
    (evRows : List EvRow) :
    NodeInv (crossDeltaRows isMulti gvRows nRows nvRows eRows evRows)
  ∧ EdgeInv (crossDeltaRows isMulti gvRows nRows nvRows eRows evRows) := by
  unfold crossDeltaRows
  constructor
  · -- node part: node_val is still empty when the node_val fold starts
    have hbase : NodeInv (nRows.foldl setnode
        (gvRows.foldl setgraphval emptyDelta)) := by
      intro g n _ k
      have h1 := (foldl_setnode_others nRows (gvRows.foldl setgraphval emptyDelta)).1
      have h2 := (foldl_setgraphval_node_val gvRows emptyDelta).1
      rw [h1, h2]
      rfl
    have h3 : NodeInv (nvRows.foldl setnodeval (nRows.foldl setnode
        (gvRows.foldl setgraphval emptyDelta))) :=
      foldl_preserves setnodeval NodeInv setnodeval_nodeInv nvRows _ hbase
    have h4 : NodeInv (eRows.foldl (setedge isMulti)
        (nvRows.foldl setnodeval (nRows.foldl setnode
          (gvRows.foldl setgraphval emptyDelta)))) :=
      foldl_preserves (setedge isMulti) NodeInv
        (fun s r hs => nodeInv_of_keeps hs (setedge_keeps isMulti s r).1
          (setedge_keeps isMulti s r).2) eRows _ h3
    exact foldl_preserves (setedgeval isMulti) NodeInv
      (fun s r hs => nodeInv_of_keeps hs (setedgeval_keeps isMulti s r).1
        (setedgeval_keeps isMulti s r).2) evRows _ h4
  · -- edge part: edge_val is still empty when the edge_val fold starts
    have hbase : EdgeInv (eRows.foldl (setedge isMulti)
        (nvRows.foldl setnodeval (nRows.foldl setnode
          (gvRows.foldl setgraphval emptyDelta)))) := by
      intro g o dst i _ k
      rw [foldl_setedge_edge_val isMulti eRows,
          (foldl_setnodeval_others nvRows _).2.2,
          (foldl_setnode_others nRows _).2.2,
          (foldl_setgraphval_node_val gvRows emptyDelta).2.2.2]
      rfl
    exact foldl_preserves (setedgeval isMulti) EdgeInv
      (setedgeval_edgeInv isMulti) evRows _ hbase

/-- Supporting: `get_turn_delta` does implement the suppression for
nodes — its `node_val` loop carries the same guard as `setnodeval`. -/
theorem turn_delta_node_suppresses (isMulti : String → Bool)
    (gvRows : List GvRow) (nRows : List NRow) (nvRows : List NvRow)
    (eRows : List ERow) (evRows : List EvRow) :
    NodeInv (buildTurnDeltaRows isMulti gvRows nRows nvRows eRows evRows) := by
  unfold buildTurnDeltaRows
  have hbase : NodeInv (nRows.foldl setnode
      (gvRows.foldl setgraphval emptyDelta)) := by
    intro g n _ k
    have h1 := (foldl_setnode_others nRows (gvRows.foldl setgraphval emptyDelta)).1
    have h2 := (foldl_setgraphval_node_val gvRows emptyDelta).1
    rw [h1, h2]
    rfl
  have h3 : NodeInv (nvRows.foldl setnodeval (nRows.foldl setnode
      (gvRows.foldl setgraphval emptyDelta))) :=
    foldl_preserves setnodeval NodeInv setnodeval_nodeInv nvRows _ hbase
  have h4 : NodeInv (eRows.foldl (turnDeltaEdge isMulti)
      (nvRows.foldl setnodeval (nRows.foldl setnode
        (gvRows.foldl setgraphval emptyDelta)))) :=
    foldl_preserves (turnDeltaEdge isMulti) NodeInv
      (fun s r hs => nodeInv_of_keeps hs (turnDeltaEdge_keeps isMulti s r).1
        (turnDeltaEdge_keeps isMulti s r).2) eRows _ h3
  exact foldl_preserves (turnDeltaEdgeVal isMulti) NodeInv
    (fun s r hs => nodeInv_of_keeps hs (turnDeltaEdgeVal_keeps isMulti s r).1
      (turnDeltaEdgeVal_keeps isMulti s r).2) evRows _ h4

/-- C10: `get_turn_delta` substitutes the cursor for any falsy argument —
the empty string for `branch`, `0` for `turn` or `tick_to` — exactly as
for an omitted one, so a delta explicitly for turn 0, for the
empty-string branch, or ending at tick 0 cannot be requested through this
interface unless the cursor is already there. -/
theorem c10_turn_delta_falsy (e : Orm) :
    (∀ t tf tt, get_turn_delta e (some "") t tf tt
        = get_turn_delta e none t tf tt)
  ∧ (∀ b tf tt, get_turn_delta e b (some 0) tf tt
        = get_turn_delta e b none tf tt)
  ∧ (∀ b t tf, get_turn_delta e b t tf (some 0)
        = get_turn_delta e b t tf none)
  ∧ (∀ b, orFalsyS b e.obranch = "" → e.obranch = "")
  ∧ (∀ t, orFalsyN t e.oturn = 0 → e.oturn = 0)
  ∧ (∀ tt, orFalsyN tt e.otick = 0 → e.otick = 0) := by
  refine ⟨?_, ?_, ?_, ?_, ?_, ?_⟩
  · intro t tf tt
    unfold get_turn_delta
    rw [show orFalsyS (some "") e.obranch = orFalsyS none e.obranch by
      simp [orFalsyS]]
  · intro b tf tt
    unfold get_turn_delta
    rw [show orFalsyN (some 0) e.oturn = orFalsyN none e.oturn by
      simp [orFalsyN]]
  · intro b t tf
    unfold get_turn_delta
    rw [show orFalsyN (some 0) e.otick = orFalsyN none e.otick by
      simp [orFalsyN]]
  · intro b hb
    rcases b with _ | s
    · exact hb
    · simp only [orFalsyS] at hb
      by_cases hs : s = ""
      · rw [if_pos hs] at hb
        exact hb
      · rw [if_neg hs] at hb
        exact absurd hb hs
  · intro t ht
    rcases t with _ | n
    · exact ht
    · simp only [orFalsyN] at ht
      by_cases hn : n = 0
      · rw [if_pos hn] at ht
        exact ht
      · rw [if_neg hn] at ht
        exact absurd ht hn
  · intro tt htt
    rcases tt with _ | n
    · exact htt
    · simp only [orFalsyN] at htt
      by_cases hn : n = 0
      · rw [if_pos hn] at htt
        exact htt
      · rw [if_neg hn] at htt
        exact absurd htt hn

theorem c10_turn_delta_falsy_witness :
    get_turn_delta baseOrm (some "") (some 3) 0 none
      = get_turn_delta baseOrm none (some 3) 0 none
  ∧ baseOrm.oturn = 0 := by
  have h := c10_turn_delta_falsy baseOrm
  exact ⟨h.1 (some 3) 0 none, h.2.2.2.2.1 (some 0) (by decide)⟩

/-! ## Branch switching and plan copying -/

/-- The defaultdict read `self._turn_end_plan[key]`: returns the stored
tick, inserting the default `0` on a missing key. -/
def tepGetdefault (e : Orm) (key : String × Nat) : Nat × Orm :=
  match e.turn_end_plan key with
  | some v => (v, e)
  | none => (0, { e with turn_end_plan := updFun e.turn_end_plan key (some 0) })

/-- Modelled from the spec: `ORM._load_at` pages history in from the
persistence backend between the bracketing keyframes.  The backend rows
and the keyframe search are external to this embedding; only the effect
the spec describes on the per-branch loaded window — extending it to
cover the target coordinate — is represented. -/
def load_at (e : Orm) (b : String) (t k : Nat) : Orm :=
  match lookupA e.loaded b with
  | none => { e with loaded := upsertA e.loaded b (t, k, t, k) }
  | some (et, ek, lt, lk) =>
      if t < et ∨ (t = et ∧ k < ek) then
        { e with loaded := upsertA e.loaded b (t, k, lt, lk) }
      else if lt < t ∨ (t = lt ∧ lk < k) then
        { e with loaded := upsertA e.loaded b (et, ek, t, k) }
      else e

/-- Modelled from the spec: the bookkeeping of `Cache.store` (`cache.py`
is absent from the sources) — the row is recorded at its coordinate and
the cache registers itself in `_where_cached` there. -/
def cacheStore (c : CacheName) (coord : String × Nat × Nat) (row : SRow)
    (e : Orm) : Orm :=
  { e with
    cacheData := fun c2 key =>
      if c2 = c ∧ key = coord then some row else e.cacheData c2 key
    where_cached := updFun e.where_cached coord (e.where_cached coord ++ [c]) }

/-- `_copy_plans`' fresh-id allocation on the first copied write:
`self._last_plan = last_plan = last_plan + 1` and
`plans[last_plan] = branch, turn, tick`. -/
def planIncr (a : Orm) (turn tick : Nat) : Orm :=
  { a with
    last_plan := a.last_plan + 1
    plans := updFun a.plans (a.last_plan + 1) (a.obranch, turn, tick) }

/-- The per-cache body of `_copy_plans`' innermost loop: store the row
onto the current branch and record the `(turn, tick)` under the fresh
plan id (`cache.setdb` is the external backend call). -/
def writeStep (a2 : Orm) (c : CacheName) (row : SRow) (turn tick : Nat) :
    Orm :=
  { cacheStore c (a2.obranch, turn, tick) row a2 with
    plan_ticks := updFun a2.plan_ticks a2.last_plan
      (assocAppend (a2.plan_ticks a2.last_plan) turn tick)
    plan_ticks_uncommitted :=
      a2.plan_ticks_uncommitted ++ [(a2.last_plan, turn, tick)]
    time_plan := updFun a2.time_plan (a2.obranch, turn, tick)
      (some a2.last_plan)
    turn_end_plan := updFun a2.turn_end_plan (a2.obranch, turn) (some tick) }

/-- One tick of the innermost loop of `ORM._copy_plans`: skip the write
if it predates the fork tick on the fork turn; otherwise allocate the
fresh plan id on the first copied write, then for each cache registered
at the source coordinate copy its settings row onto the new branch and
record the tick under the fresh plan id. -/
def copyTickStep (bf : String) (tf kf : Nat) (st : Bool × Orm)
    (turn tick : Nat) : Bool × Orm :=
  if turn = tf ∧ tick < kf then st
  else
    (true,
      (((if st.1 then st.2 else planIncr st.2 turn tick)).where_cached
          (bf, turn, tick)).foldl
        (fun a2 c =>
          match a2.cacheData c (bf, turn, tick) with
          | none => a2
          | some row => writeStep a2 c row turn tick)
        (if st.1 then st.2 else planIncr st.2 turn tick))

/-- One plan of `ORM._copy_plans`: skipped when it starts after the fork,
otherwise its writes are walked turn by turn, tick by tick. -/
def copyOnePlan (bf : String) (tf kf : Nat) (e : Orm) (pid : Nat) : Orm :=
  if tf < (e.plans pid).2.1
      ∨ ((e.plans pid).2.1 = tf ∧ kf < (e.plans pid).2.2) then e
  else
    ((e.plan_ticks pid).foldl (fun st entry =>
        if entry.1 < tf then st
        else entry.2.foldl (fun st2 tick => copyTickStep bf tf kf st2 entry.1 tick) st)
      (false, e)).2

/-- `ORM._copy_plans`: copy every plan of the source branch still active
at the fork point onto the current (new) branch. -/
def copy_plans (e : Orm) (branch_from : String) (turn_from tick_from : Nat) :
    Orm :=
  (e.branches_plans branch_from).foldl
    (copyOnePlan branch_from turn_from tick_from) e

/-- The tail of `ORM._set_branch` for a branch that does not exist yet:
record the new branch forked at the cursor (`query.new_branch` is the
external backend call; `_upd_branch_parentage` updates ancestry indices
used only by the external loading paths), seed its turn-end records at
the fork tick, move the cursor, copy the open plans, and mark the fork
coordinate loaded. -/
def setBranchNew (e : Orm) (v : String) : Orm :=
  let e1 := { e with
    branches := upsertA e.branches v
      (some e.obranch, e.oturn, e.otick, e.oturn, e.otick)
    turn_end_plan := updFun e.turn_end_plan (v, e.oturn) (some e.otick)
    turn_end := updFun e.turn_end (v, e.oturn) e.otick
    obranch := v
    otick := e.otick }
  let e2 := copy_plans e1 e.obranch e.oturn e.otick
  { e2 with loaded := upsertA e2.loaded v (e.oturn, e.otick, e.oturn, e.otick) }

/-- The tail of `ORM._set_branch` for an existing branch: move the
cursor, then page in history if the target coordinate falls outside the
branch's loaded window. -/
def setBranchExisting (e : Orm) (v : String) : Orm :=
  let tick := (tepGetdefault e (v, e.oturn)).1
  let e1 := { (tepGetdefault e (v, e.oturn)).2 with obranch := v, otick := tick }
  match lookupA e1.loaded v with
  | none => load_at e1 v e.oturn tick
  | some (st, sk, en, ek2) =>
      if (en < e.oturn ∨ (e.oturn = en ∧ ek2 < tick))
          ∨ (e.oturn < st ∨ (e.oturn = st ∧ tick < sk)) then
        load_at e1 v e.oturn tick
      else e1

/-- `ORM._set_branch`: forbidden while planning; a no-op branch keeps the
branch and refreshes the tick; jumping to an existing branch before its
fork turn is a `ValueError`; an unknown branch is created by forking at
the cursor, inheriting the open plans by copy. -/
def set_branch (e : Orm) (v : String) : Except PyErr Orm :=
  if e.planning then .error .valueError
  else if e.obranch = v then
    .ok { (tepGetdefault e (e.obranch, e.oturn)).2 with
          otick := (tepGetdefault e (e.obranch, e.oturn)).1 }
  else
    match lookupA e.branches v with
    | some info =>
        if v ≠ "trunk" ∧ e.oturn < info.2.1 then .error .valueError
        else .ok (setBranchExisting e v)
    | none => .ok (setBranchNew e v)

/-- The writes of a plan at or after the fork `(tf, kf)` — all ticks of
turns after `tf`, and the ticks at or after `kf` on turn `tf` — grouped
by turn the way `_copy_plans` records them under the fresh plan id. -/
def postforkAssoc (tf kf : Nat) (pt : List (Nat × List Nat)) :
    List (Nat × List Nat) :=
  pt.filterMap (fun p =>
    if p.1 < tf then none
    else
      let l := p.2.filter (fun t => ¬(p.1 = tf ∧ t < kf))
      if l.isEmpty then none else some (p.1, l))

theorem assocAppend_absent {κ β : Type} [DecidableEq κ]
    (l : List (κ × List β)) (k : κ) (x : β)
    (h : k ∉ l.map (fun p => p.1)) :
    assocAppend l k x = l ++ [(k, [x])] := by
  induction l with
  | nil => rfl
  | cons p t ih =>
      rw [List.map_cons] at h
      have hne : p.1 ≠ k := fun hc => h (by rw [hc]; exact List.mem_cons_self _ _)
      show (if p.1 = k then (p.1, p.2 ++ [x]) :: t else p :: assocAppend t k x) = _
      rw [if_neg hne, ih (fun hc => h (List.mem_cons_of_mem _ hc))]
      rfl

theorem assocAppend_last {κ β : Type} [DecidableEq κ]
    (D : List (κ × List β)) (k : κ) (l : List β) (x : β)
    (h : k ∉ D.map (fun p => p.1)) :
    assocAppend (D ++ [(k, l)]) k x = D ++ [(k, l ++ [x])] := by
  induction D with
  | nil =>
      show (if k = k then (k, l ++ [x]) :: [] else _) = _
      rw [if_pos rfl]
      rfl
  | cons p t ih =>
      rw [List.map_cons] at h
      have hne : p.1 ≠ k := fun hc => h (by rw [hc]; exact List.mem_cons_self _ _)
      show (if p.1 = k then _ else p :: assocAppend (t ++ [(k, l)]) k x) = _
      rw [if_neg hne, ih (fun hc => h (List.mem_cons_of_mem _ hc))]
      rfl

theorem postforkAssoc_keys_sub (tf kf : Nat) (pt : List (Nat × List Nat)) :
    ∀ k ∈ (postforkAssoc tf kf pt).map (fun p => p.1),
      k ∈ pt.map (fun p => p.1) := by
  intro k hk
  rw [List.mem_map] at hk
  obtain ⟨q, hq, hqe⟩ := hk
  rw [postforkAssoc, List.mem_filterMap] at hq
  obtain ⟨p, hp, hpe⟩ := hq
  by_cases h1 : p.1 < tf
  · rw [if_pos h1] at hpe
    exact absurd hpe (by simp)
  · rw [if_neg h1] at hpe
    simp only at hpe
    by_cases h2 : (p.2.filter (fun t => ¬(p.1 = tf ∧ t < kf))).isEmpty = true
    · rw [if_pos h2] at hpe
      exact absurd hpe (by simp)
    · rw [if_neg h2] at hpe
      have : q = (p.1, _) := (Option.some_inj.mp hpe).symm
      rw [List.mem_map]
      exact ⟨p, hp, by rw [← hqe, this]⟩

/-- The grouped qualifying ticks of one turn, as `_copy_plans` records
them: nothing when no tick qualifies. -/
def grp (turn : Nat) (l : List Nat) : List (Nat × List Nat) :=
  if l.isEmpty then [] else [(turn, l)]

theorem postforkAssoc_cons (tf kf : Nat) (p : Nat × List Nat)
    (pt : List (Nat × List Nat)) :
    postforkAssoc tf kf (p :: pt)
      = (if p.1 < tf then []
         else grp p.1 (p.2.filter (fun t => ¬(p.1 = tf ∧ t < kf))))
        ++ postforkAssoc tf kf pt := by
  unfold postforkAssoc
  rw [List.filterMap_cons]
  by_cases h1 : p.1 < tf
  · rw [if_pos h1, if_pos h1]
    rfl
  · rw [if_neg h1, if_neg h1]
    simp only [grp]
    by_cases h2 : (p.2.filter (fun t => ¬(p.1 = tf ∧ t < kf))).isEmpty = true
    · rw [if_pos h2, if_pos h2]
      rfl
    · rw [if_neg h2, if_neg h2]
      rfl

/-- The invariant of the `_copy_plans` folds, relative to the entry state
`s`: the source branch `bf` was forked into the cursor branch of `s`, `E`
is the association of writes copied so far (empty iff the fresh id has
not been allocated, in which case nothing has changed at all). -/
def CopyGood (s : Orm) (bf : String) (fl : Bool) (a : Orm)
    (E : List (Nat × List Nat)) : Prop :=
  a.obranch = s.obranch
  ∧ (∀ p, p ≤ s.last_plan → a.plan_ticks p = s.plan_ticks p ∧ a.plans p = s.plans p)
  ∧ (∀ key : String × Nat × Nat, key.1 = bf →
      a.where_cached key = s.where_cached key
      ∧ ∀ c, a.cacheData c key = s.cacheData c key)
  ∧ (∀ p, a.last_plan < p → a.plan_ticks p = [])
  ∧ (if E.isEmpty then fl = false ∧ a = s
     else fl = true ∧ a.last_plan = s.last_plan + 1
        ∧ a.plan_ticks (s.last_plan + 1) = E)

theorem copyTickStep_skip (bf : String) (tf kf turn tick : Nat)
    (st : Bool × Orm) (h : turn = tf ∧ tick < kf) :
    copyTickStep bf tf kf st turn tick = st := by
  unfold copyTickStep
  rw [if_pos h]

theorem copyTickStep_qual (bf : String) (tf kf turn tick : Nat) (fl : Bool)
    (a : Orm) (hq : ¬(turn = tf ∧ tick < kf)) (c : CacheName) (row : SRow)
    (hwc : a.where_cached (bf, turn, tick) = [c])
    (hrow : a.cacheData c (bf, turn, tick) = some row) :
    copyTickStep bf tf kf (fl, a) turn tick
      = (true, writeStep (if fl then a else planIncr a turn tick) c row
          turn tick) := by
  unfold copyTickStep
  rw [if_neg hq]
  cases fl with
  | false =>
      have h1 : (planIncr a turn tick).where_cached = a.where_cached := rfl
      have h2 : (planIncr a turn tick).cacheData = a.cacheData := rfl
      simp only [if_neg Bool.false_ne_true, h1, hwc, List.foldl_cons,
        List.foldl_nil, h2, hrow]
  | true =>
      simp [hwc, hrow]

theorem grp_eq_nil (turn : Nat) (l : List Nat) : grp turn l = [] ↔ l = [] := by
  unfold grp
  constructor
  · intro h
    by_cases he : l.isEmpty = true
    · exact List.isEmpty_iff.mp he
    · rw [if_neg he] at h
      exact absurd h (by simp)
  · intro h
    rw [h]
    rfl

theorem grp_ne_nil (turn : Nat) (x : Nat) (l : List Nat) :
    grp turn (l ++ [x]) = [(turn, l ++ [x])] := by
  unfold grp
  rw [if_neg (by simp)]

theorem assocAppend_grp (D : List (Nat × List Nat)) (turn : Nat)
    (l : List Nat) (t : Nat) (hD : turn ∉ D.map Prod.fst) :
    assocAppend (D ++ grp turn l) turn t = D ++ grp turn (l ++ [t]) := by
  cases l with
  | nil =>
      show assocAppend (D ++ []) turn t = D ++ grp turn [t]
      rw [List.append_nil, assocAppend_absent D turn t hD]
      rfl
  | cons x xs =>
      show assocAppend (D ++ [(turn, x :: xs)]) turn t = _
      rw [assocAppend_last D turn (x :: xs) t hD, grp_ne_nil]

theorem writeStep_obranch (a2 : Orm) (c : CacheName) (row : SRow)
    (turn t : Nat) : (writeStep a2 c row turn t).obranch = a2.obranch := rfl

theorem writeStep_last_plan (a2 : Orm) (c : CacheName) (row : SRow)
    (turn t : Nat) : (writeStep a2 c row turn t).last_plan = a2.last_plan := rfl

theorem writeStep_plans (a2 : Orm) (c : CacheName) (row : SRow)
    (turn t : Nat) : (writeStep a2 c row turn t).plans = a2.plans := rfl

theorem writeStep_plan_ticks (a2 : Orm) (c : CacheName) (row : SRow)
    (turn t : Nat) : (writeStep a2 c row turn t).plan_ticks
      = updFun a2.plan_ticks a2.last_plan
          (assocAppend (a2.plan_ticks a2.last_plan) turn t) := rfl

theorem writeStep_where_cached (a2 : Orm) (c : CacheName) (row : SRow)
    (turn t : Nat) : (writeStep a2 c row turn t).where_cached
      = updFun a2.where_cached (a2.obranch, turn, t)
          (a2.where_cached (a2.obranch, turn, t) ++ [c]) := rfl

theorem writeStep_cacheData (a2 : Orm) (c : CacheName) (row : SRow)
    (turn t : Nat) (c2 : CacheName) (key : String × Nat × Nat) :
    (writeStep a2 c row turn t).cacheData c2 key
      = if c2 = c ∧ key = (a2.obranch, turn, t) then some row
        else a2.cacheData c2 key := rfl

theorem planIncr_obranch (a : Orm) (turn t : Nat) :
    (planIncr a turn t).obranch = a.obranch := rfl

theorem planIncr_last_plan (a : Orm) (turn t : Nat) :
    (planIncr a turn t).last_plan = a.last_plan + 1 := rfl

theorem planIncr_plan_ticks (a : Orm) (turn t : Nat) :
    (planIncr a turn t).plan_ticks = a.plan_ticks := rfl

theorem planIncr_plans (a : Orm) (turn t : Nat) :
    (planIncr a turn t).plans
      = updFun a.plans (a.last_plan + 1) (a.obranch, turn, t) := rfl

theorem planIncr_where_cached (a : Orm) (turn t : Nat) :
    (planIncr a turn t).where_cached = a.where_cached := rfl

theorem planIncr_cacheData (a : Orm) (turn t : Nat) :
    (planIncr a turn t).cacheData = a.cacheData := rfl

theorem copyTickStep_good (s : Orm) (bf : String) (tf kf turn t : Nat)
    (fl : Bool) (a : Orm) (D : List (Nat × List Nat)) (l : List Nat)
    (hbf : s.obranch ≠ bf)
    (hinv : CopyGood s bf fl a (D ++ grp turn l))
    (hD : turn ∉ D.map Prod.fst)
    (hq : ¬(turn = tf ∧ t < kf))
    (c : CacheName) (row : SRow)
    (hwc : s.where_cached (bf, turn, t) = [c])
    (hrow : s.cacheData c (bf, turn, t) = some row) :
    CopyGood s bf (copyTickStep bf tf kf (fl, a) turn t).1
      (copyTickStep bf tf kf (fl, a) turn t).2
      (D ++ grp turn (l ++ [t])) := by
  obtain ⟨h1, h2, h3, h4, h5⟩ := hinv
  have hwca : a.where_cached (bf, turn, t) = [c] := by
    rw [(h3 (bf, turn, t) rfl).1, hwc]
  have hrowa : a.cacheData c (bf, turn, t) = some row := by
    rw [(h3 (bf, turn, t) rfl).2 c, hrow]
  rw [copyTickStep_qual bf tf kf turn t fl a hq c row hwca hrowa]
  cases fl with
  | false =>
      -- first copied write of this plan: nothing was recorded yet
      have hE : (D ++ grp turn l).isEmpty = true := by
        by_cases he : (D ++ grp turn l).isEmpty = true
        · exact he
        · rw [if_neg he] at h5
          exact absurd h5.1 (by simp)
      rw [if_pos hE] at h5
      have has : a = s := h5.2
      have hDnil : D = [] := (List.append_eq_nil.mp (List.isEmpty_iff.mp hE)).1
      have hlnil : l = [] := by
        have := (List.append_eq_nil.mp (List.isEmpty_iff.mp hE)).2
        exact (grp_eq_nil turn l).mp this
      subst has hDnil hlnil
      simp only [if_neg Bool.false_ne_true]
      refine ⟨rfl, ?_, ?_, ?_, ?_⟩
      · intro p hp
        constructor
        · rw [writeStep_plan_ticks, planIncr_last_plan, planIncr_plan_ticks]
          rw [updFun_other _ _ _ _ (by omega)]
        · rw [writeStep_plans, planIncr_plans]
          rw [updFun_other _ _ _ _ (by omega)]
      · intro key hkey
        have hkc : key ≠ ((planIncr a turn t).obranch, turn, t) := by
          intro hc
          rw [planIncr_obranch] at hc
          exact hbf (by rw [← hkey, hc])
        constructor
        · rw [writeStep_where_cached, updFun_other _ _ _ _ hkc,
            planIncr_where_cached]
        · intro c2
          rw [writeStep_cacheData,
            if_neg (fun hc => hkc hc.2), planIncr_cacheData]
      · intro p hp
        rw [writeStep_last_plan, planIncr_last_plan] at hp
        rw [writeStep_plan_ticks, planIncr_last_plan, planIncr_plan_ticks]
        rw [updFun_other _ _ _ _ (by omega)]
        exact h4 p (by omega)
      · rw [List.nil_append, grp_ne_nil]
        rw [if_neg (by simp)]
        refine ⟨rfl, ?_, ?_⟩
        · rw [writeStep_last_plan, planIncr_last_plan]
        · rw [writeStep_plan_ticks, planIncr_last_plan, planIncr_plan_ticks,
            updFun_same]
          rw [h4 (a.last_plan + 1) (by omega)]
          rfl
  | true =>
      -- a fresh plan id is already allocated and carries the entries E
      have hE : ¬(D ++ grp turn l).isEmpty = true := by
        intro he
        rw [if_pos he] at h5
        exact absurd h5.1 (by simp)
      rw [if_neg hE] at h5
      obtain ⟨-, hlp, hpt⟩ := h5
      rw [show (if (true : Bool) = true then a else planIncr a turn t) = a
        from rfl]
      refine ⟨?_, ?_, ?_, ?_, ?_⟩
      · rw [writeStep_obranch]
        exact h1
      · intro p hp
        constructor
        · rw [writeStep_plan_ticks, hlp, updFun_other _ _ _ _ (by omega)]
          exact (h2 p hp).1
        · rw [writeStep_plans]
          exact (h2 p hp).2
      · intro key hkey
        have hkc : key ≠ (a.obranch, turn, t) := by
          intro hc
          rw [h1] at hc
          exact hbf (by rw [← hkey, hc])
        constructor
        · rw [writeStep_where_cached, updFun_other _ _ _ _ hkc]
          exact (h3 key hkey).1
        · intro c2
          rw [writeStep_cacheData, if_neg (fun hc => hkc hc.2)]
          exact (h3 key hkey).2 c2
      · intro p hp
        rw [writeStep_last_plan, hlp] at hp
        rw [writeStep_plan_ticks, hlp, updFun_other _ _ _ _ (by omega)]
        exact h4 p (by omega)
      · rw [if_neg (by cases l <;> simp [grp])]
        refine ⟨rfl, ?_, ?_⟩
        · rw [writeStep_last_plan, hlp]
        · rw [writeStep_plan_ticks, hlp, updFun_same, hpt]
          exact assocAppend_grp D turn l t hD

theorem copyTicks_fold (s : Orm) (bf : String) (tf kf turn : Nat)
    (hbf : s.obranch ≠ bf) (tks : List Nat) :
    ∀ (st : Bool × Orm) (D : List (Nat × List Nat)) (l : List Nat),
    CopyGood s bf st.1 st.2 (D ++ grp turn l) →
    turn ∉ D.map Prod.fst →
    (∀ t ∈ tks, ¬(turn = tf ∧ t < kf) →
      ∃ c row, s.where_cached (bf, turn, t) = [c]
        ∧ s.cacheData c (bf, turn, t) = some row) →
    CopyGood s bf
      (tks.foldl (fun st2 tick => copyTickStep bf tf kf st2 turn tick) st).1
      (tks.foldl (fun st2 tick => copyTickStep bf tf kf st2 turn tick) st).2
      (D ++ grp turn (l ++ tks.filter (fun t => ¬(turn = tf ∧ t < kf)))) := by
  induction tks with
  | nil =>
      intro st D l hinv hD hdata
      simpa using hinv
  | cons t rest ih =>
      intro st D l hinv hD hdata
      obtain ⟨fl, a⟩ := st
      rw [List.foldl_cons]
      by_cases hq : turn = tf ∧ t < kf
      · rw [copyTickStep_skip bf tf kf turn t (fl, a) hq,
          List.filter_cons_of_neg (by simpa using hq)]
        exact ih (fl, a) D l hinv hD
          (fun u hu => hdata u (List.mem_cons_of_mem _ hu))
      · rw [List.filter_cons_of_pos (by rw [decide_eq_true_eq]; exact hq)]
        obtain ⟨c, row, hwc, hrow⟩ := hdata t (List.mem_cons_self _ _) hq
        have hstep := copyTickStep_good s bf tf kf turn t fl a D l hbf hinv
          hD hq c row hwc hrow
        have hrest := ih (copyTickStep bf tf kf (fl, a) turn t) D (l ++ [t])
          hstep hD (fun u hu => hdata u (List.mem_cons_of_mem _ hu))
        simp only [List.append_assoc, List.cons_append, List.nil_append]
          at hrest
        exact hrest

theorem grp_keys (turn : Nat) (l : List Nat) :
    ∀ k ∈ (grp turn l).map Prod.fst, k = turn := by
  intro k hk
  unfold grp at hk
  by_cases he : l.isEmpty = true
  · rw [if_pos he] at hk
    exact absurd hk (by simp)
  · rw [if_neg he] at hk
    simpa using hk

theorem copyEntries_fold (s : Orm) (bf : String) (tf kf : Nat)
    (hbf : s.obranch ≠ bf) (entries : List (Nat × List Nat)) :
    ∀ (st : Bool × Orm) (D : List (Nat × List Nat)),
    CopyGood s bf st.1 st.2 D →
    (∀ p ∈ entries, p.1 ∉ D.map Prod.fst) →
    (entries.map Prod.fst).Nodup →
    (∀ p ∈ entries, ∀ t ∈ p.2, ¬(p.1 = tf ∧ t < kf) →
      ∃ c row, s.where_cached (bf, p.1, t) = [c]
        ∧ s.cacheData c (bf, p.1, t) = some row) →
    CopyGood s bf
      (entries.foldl (fun st1 entry =>
        if entry.1 < tf then st1
        else entry.2.foldl
          (fun st2 tick => copyTickStep bf tf kf st2 entry.1 tick) st1) st).1
      (entries.foldl (fun st1 entry =>
        if entry.1 < tf then st1
        else entry.2.foldl
          (fun st2 tick => copyTickStep bf tf kf st2 entry.1 tick) st1) st).2
      (D ++ postforkAssoc tf kf entries) := by
  induction entries with
  | nil =>
      intro st D hinv hdisj hnd hdata
      simpa [postforkAssoc] using hinv
  | cons p rest ih =>
      intro st D hinv hdisj hnd hdata
      rw [List.foldl_cons, postforkAssoc_cons]
      by_cases h1 : p.1 < tf
      · rw [if_pos h1, if_pos h1, List.nil_append]
        exact ih st D hinv
          (fun q hq => hdisj q (List.mem_cons_of_mem _ hq))
          (by rw [List.map_cons] at hnd; exact hnd.of_cons)
          (fun q hq => hdata q (List.mem_cons_of_mem _ hq))
      · rw [if_neg h1, if_neg h1]
        have hinner := copyTicks_fold s bf tf kf p.1 hbf p.2 st D []
          (by rw [show grp p.1 ([] : List Nat) = [] from rfl, List.append_nil]
              exact hinv)
          (hdisj p (List.mem_cons_self _ _))
          (fun t ht => hdata p (List.mem_cons_self _ _) t ht)
        rw [List.nil_append] at hinner
        have hres := ih
          (p.2.foldl (fun st2 tick => copyTickStep bf tf kf st2 p.1 tick) st)
          (D ++ grp p.1 (p.2.filter (fun t => ¬(p.1 = tf ∧ t < kf))))
          hinner
          (by
            intro q hq
            rw [List.map_append, List.mem_append]
            rintro (hc | hc)
            · exact hdisj q (List.mem_cons_of_mem _ hq) hc
            · have hq1 : q.1 = p.1 := grp_keys _ _ _ hc
              rw [List.map_cons] at hnd
              have := (List.nodup_cons.mp hnd).1
              exact this (hq1 ▸ List.mem_map_of_mem Prod.fst hq))
          (by rw [List.map_cons] at hnd; exact hnd.of_cons)
          (fun q hq => hdata q (List.mem_cons_of_mem _ hq))
        rw [List.append_assoc] at hres
        exact hres

/-- Invariant of the outer `_copy_plans` fold, relative to the state `s`
at its entry: the cursor branch is unchanged, fresh plan ids only grow,
all plan records up to `s`'s last id and all data of the source branch
`bf` are untouched, and ids beyond the frontier are still blank. -/
def PlansInv (s a : Orm) (bf : String) : Prop :=
  a.obranch = s.obranch
  ∧ s.last_plan ≤ a.last_plan
  ∧ (∀ p, p ≤ s.last_plan → a.plan_ticks p = s.plan_ticks p ∧ a.plans p = s.plans p)
  ∧ (∀ key : String × Nat × Nat, key.1 = bf →
      a.where_cached key = s.where_cached key
      ∧ ∀ c, a.cacheData c key = s.cacheData c key)
  ∧ (∀ p, a.last_plan < p → a.plan_ticks p = [])

theorem PlansInv_refl (s : Orm) (bf : String)
    (hfresh : ∀ p, s.last_plan < p → s.plan_ticks p = []) :
    PlansInv s s bf :=
  ⟨rfl, Nat.le_refl _, fun _ _ => ⟨rfl, rfl⟩, fun _ _ => ⟨rfl, fun _ => rfl⟩,
    hfresh⟩

theorem PlansInv_step (s a b : Orm) (bf : String) (fl : Bool)
    (E : List (Nat × List Nat)) (hsa : PlansInv s a bf)
    (hab : CopyGood a bf fl b E) :
    PlansInv s b bf ∧ a.last_plan ≤ b.last_plan := by
  obtain ⟨i1, i2, i3, i4, i5⟩ := hsa
  obtain ⟨g1, g2, g3, g4, g5⟩ := hab
  have hlp : a.last_plan ≤ b.last_plan := by
    by_cases he : E.isEmpty = true
    · rw [if_pos he] at g5
      rw [g5.2]
    · rw [if_neg he] at g5
      omega
  refine ⟨⟨g1.trans i1, i2.trans hlp, ?_, ?_, g4⟩, hlp⟩
  · intro p hp
    have hpa := g2 p (hp.trans i2)
    exact ⟨hpa.1.trans (i3 p hp).1, hpa.2.trans (i3 p hp).2⟩
  · intro key hkey
    exact ⟨(g3 key hkey).1.trans (i4 key hkey).1,
      fun c => ((g3 key hkey).2 c).trans ((i4 key hkey).2 c)⟩

theorem copyOnePlan_spec (s : Orm) (bf : String) (tf kf : Nat)
    (hbf : s.obranch ≠ bf) (a : Orm) (pid : Nat)
    (hinv : PlansInv s a bf) (hid : pid ≤ s.last_plan)
    (hnd : ((s.plan_ticks pid).map Prod.fst).Nodup)
    (hdata : ∀ p ∈ s.plan_ticks pid, ∀ t ∈ p.2, ¬(p.1 = tf ∧ t < kf) →
      ∃ c row, s.where_cached (bf, p.1, t) = [c]
        ∧ s.cacheData c (bf, p.1, t) = some row) :
    PlansInv s (copyOnePlan bf tf kf a pid) bf
    ∧ a.last_plan ≤ (copyOnePlan bf tf kf a pid).last_plan
    ∧ (∀ q, q ≤ a.last_plan →
        (copyOnePlan bf tf kf a pid).plan_ticks q = a.plan_ticks q)
    ∧ (¬(tf < (s.plans pid).2.1
          ∨ ((s.plans pid).2.1 = tf ∧ kf < (s.plans pid).2.2)) →
        postforkAssoc tf kf (s.plan_ticks pid) = []
        ∨ ∃ q, s.last_plan < q
            ∧ q ≤ (copyOnePlan bf tf kf a pid).last_plan
            ∧ (copyOnePlan bf tf kf a pid).plan_ticks q
                = postforkAssoc tf kf (s.plan_ticks pid)) := by
  have hpa : a.plans pid = s.plans pid := (hinv.2.2.1 pid hid).2
  have hta : a.plan_ticks pid = s.plan_ticks pid := (hinv.2.2.1 pid hid).1
  have hbfa : a.obranch ≠ bf := by rw [hinv.1]; exact hbf
  unfold copyOnePlan
  rw [hpa, hta]
  by_cases hskip : tf < (s.plans pid).2.1
      ∨ ((s.plans pid).2.1 = tf ∧ kf < (s.plans pid).2.2)
  · rw [if_pos hskip]
    exact ⟨hinv, Nat.le_refl _, fun q _ => rfl, fun hns => absurd hskip hns⟩
  · rw [if_neg hskip]
    have hstart : CopyGood a bf (false, a).1 (false, a).2 [] := by
      refine ⟨rfl, fun _ _ => ⟨rfl, rfl⟩, fun _ _ => ⟨rfl, fun _ => rfl⟩,
        hinv.2.2.2.2, ⟨rfl, rfl⟩⟩
    have hdataa : ∀ p ∈ s.plan_ticks pid, ∀ t ∈ p.2,
        ¬(p.1 = tf ∧ t < kf) →
        ∃ c row, a.where_cached (bf, p.1, t) = [c]
          ∧ a.cacheData c (bf, p.1, t) = some row := by
      intro p hp t ht hq
      obtain ⟨c, row, hwc, hrow⟩ := hdata p hp t ht hq
      refine ⟨c, row, ?_, ?_⟩
      · rw [(hinv.2.2.2.1 (bf, p.1, t) rfl).1, hwc]
      · rw [(hinv.2.2.2.1 (bf, p.1, t) rfl).2 c, hrow]
    have hfold := copyEntries_fold a bf tf kf hbfa (s.plan_ticks pid)
      (false, a) [] hstart (by simp) hnd hdataa
    rw [List.nil_append] at hfold
    obtain ⟨hPI, hlp⟩ := PlansInv_step s a _ bf _ _ hinv hfold
    refine ⟨hPI, hlp, fun q hq => (hfold.2.1 q hq).1, ?_⟩
    intro hns
    by_cases he : (postforkAssoc tf kf (s.plan_ticks pid)).isEmpty = true
    · exact Or.inl (List.isEmpty_iff.mp he)
    · have h5 := hfold.2.2.2.2
      rw [if_neg he] at h5
      have hle := hinv.2.1
      exact Or.inr ⟨a.last_plan + 1, by omega,
        Nat.le_of_eq h5.2.1.symm, h5.2.2⟩

theorem copyPlans_fold (s : Orm) (bf : String) (tf kf : Nat)
    (hbf : s.obranch ≠ bf) (pids : List Nat) :
    ∀ a, PlansInv s a bf →
    (∀ pid ∈ pids, pid ≤ s.last_plan) →
    (∀ pid ∈ pids, ((s.plan_ticks pid).map Prod.fst).Nodup) →
    (∀ pid ∈ pids, ∀ p ∈ s.plan_ticks pid, ∀ t ∈ p.2,
      ¬(p.1 = tf ∧ t < kf) →
      ∃ c row, s.where_cached (bf, p.1, t) = [c]
        ∧ s.cacheData c (bf, p.1, t) = some row) →
    PlansInv s (pids.foldl (copyOnePlan bf tf kf) a) bf
    ∧ a.last_plan ≤ (pids.foldl (copyOnePlan bf tf kf) a).last_plan
    ∧ (∀ q, q ≤ a.last_plan →
        (pids.foldl (copyOnePlan bf tf kf) a).plan_ticks q
          = a.plan_ticks q)
    ∧ (∀ pid ∈ pids,
        ¬(tf < (s.plans pid).2.1
            ∨ ((s.plans pid).2.1 = tf ∧ kf < (s.plans pid).2.2)) →
        postforkAssoc tf kf (s.plan_ticks pid) = []
        ∨ ∃ q, s.last_plan < q
            ∧ q ≤ (pids.foldl (copyOnePlan bf tf kf) a).last_plan
            ∧ (pids.foldl (copyOnePlan bf tf kf) a).plan_ticks q
                = postforkAssoc tf kf (s.plan_ticks pid)) := by
  induction pids with
  | nil =>
      intro a hinv _ _ _
      exact ⟨hinv, Nat.le_refl _, fun q _ => rfl, fun pid hpid => absurd hpid
        (by simp)⟩
  | cons pid rest ih =>
      intro a hinv hids hnd hdata
      rw [List.foldl_cons]
      obtain ⟨hPI1, hlp1, hpres1, hcopy1⟩ := copyOnePlan_spec s bf tf kf hbf
        a pid hinv (hids pid (List.mem_cons_self _ _))
        (hnd pid (List.mem_cons_self _ _))
        (hdata pid (List.mem_cons_self _ _))
      obtain ⟨hPI2, hlp2, hpres2, hcopy2⟩ := ih (copyOnePlan bf tf kf a pid)
        hPI1 (fun q hq => hids q (List.mem_cons_of_mem _ hq))
        (fun q hq => hnd q (List.mem_cons_of_mem _ hq))
        (fun q hq => hdata q (List.mem_cons_of_mem _ hq))
      refine ⟨hPI2, hlp1.trans hlp2, ?_, ?_⟩
      · intro q hq
        rw [hpres2 q (hq.trans hlp1), hpres1 q hq]
      · intro q hq hns
        rcases List.mem_cons.mp hq with hq1 | hq2
        · subst hq1
          rcases hcopy1 hns with hnil | ⟨w, hw1, hw2, hw3⟩
          · exact Or.inl hnil
          · exact Or.inr ⟨w, hw1, hw2.trans hlp2, (hpres2 w hw2).trans hw3⟩
        · exact hcopy2 q hq2 hns

/-- C8: switching the cursor to a branch name that does not yet exist
forks from the current coordinate: every plan of the parent branch whose
start is at or before the fork coordinate is copied onto the new branch
under a fresh plan id — the copy holding exactly the plan's writes at or
after the fork — while the parent branch's plan records and cached data
remain unchanged (copy, not move). -/
theorem c8_branch_fork_copies_plans (e : Orm) (v : String)
    (hpl : e.planning = false)
    (hnew : lookupA e.branches v = none)
    (hne : v ≠ e.obranch)
    (hfresh : ∀ p, e.last_plan < p → e.plan_ticks p = [])
    (hids : ∀ pid ∈ e.branches_plans e.obranch, pid ≤ e.last_plan)
    (hnd : ∀ pid ∈ e.branches_plans e.obranch,
      ((e.plan_ticks pid).map Prod.fst).Nodup)
    (hdata : ∀ pid ∈ e.branches_plans e.obranch,
      ∀ p ∈ e.plan_ticks pid, ∀ t ∈ p.2,
      ¬(p.1 = e.oturn ∧ t < e.otick) →
      ∃ c row, e.where_cached (e.obranch, p.1, t) = [c]
        ∧ e.cacheData c (e.obranch, p.1, t) = some row) :
    ∃ e2, set_branch e v = .ok e2
      ∧ e2.obranch = v
      ∧ (∀ p, p ≤ e.last_plan →
          e2.plan_ticks p = e.plan_ticks p ∧ e2.plans p = e.plans p)
      ∧ (∀ key : String × Nat × Nat, key.1 = e.obranch →
          e2.where_cached key = e.where_cached key
          ∧ ∀ c, e2.cacheData c key = e.cacheData c key)
      ∧ (∀ pid ∈ e.branches_plans e.obranch,
          ¬(e.oturn < (e.plans pid).2.1
              ∨ ((e.plans pid).2.1 = e.oturn ∧ e.otick < (e.plans pid).2.2)) →
          ∃ q, e.last_plan < q
            ∧ e2.plan_ticks q
                = postforkAssoc e.oturn e.otick (e.plan_ticks pid)) := by
  have hsb : set_branch e v = .ok (setBranchNew e v) := by
    unfold set_branch
    rw [if_neg (by rw [hpl]; exact Bool.false_ne_true),
      if_neg (fun hc => hne hc.symm), hnew]
  obtain ⟨hPI, hlp, hpres, hcopy⟩ := copyPlans_fold
    ({ e with
        branches := upsertA e.branches v
          (some e.obranch, e.oturn, e.otick, e.oturn, e.otick)
        turn_end_plan := updFun e.turn_end_plan (v, e.oturn) (some e.otick)
        turn_end := updFun e.turn_end (v, e.oturn) e.otick
        obranch := v
        otick := e.otick })
    e.obranch e.oturn e.otick (fun hc => hne hc)
    (e.branches_plans e.obranch) _
    (PlansInv_refl _ _ hfresh) hids hnd hdata
  refine ⟨setBranchNew e v, hsb, hPI.1, ?_, ?_, ?_⟩
  · intro p hp
    exact hPI.2.2.1 p hp
  · intro key hkey
    exact hPI.2.2.2.1 key hkey
  · intro pid hpid hns
    rcases hcopy pid hpid hns with hnil | ⟨q, hq1, _, hq3⟩
    · refine ⟨(setBranchNew e v).last_plan + 1, ?_, ?_⟩
      · have h1 : e.last_plan ≤ (setBranchNew e v).last_plan := hlp
        omega
      · rw [hnil]
        exact hPI.2.2.2.2 _ (Nat.lt_succ_self _)
    · exact ⟨q, hq1, hq3⟩

/-- A state with one open plan (id 1) on "trunk" holding writes at
(0,0), (0,1) and (1,0), with the cursor — the fork point — at (0,1). -/
def c8orm : Orm := { baseOrm with
  otick := 1
  last_plan := 1
  branches_plans := fun b => if b = "trunk" then [1] else []
  plan_ticks := fun p => if p = 1 then [(0, [0, 1]), (1, [0])] else []
  where_cached := fun key =>
    if key = ("trunk", 0, 1) ∨ key = ("trunk", 1, 0) then [.nodeVal] else []
  cacheData := fun c key =>
    if c = .nodeVal ∧ (key = ("trunk", 0, 1) ∨ key = ("trunk", 1, 0))
    then some [7] else none }

theorem c8_branch_fork_copies_plans_witness :
    ∃ e2, set_branch c8orm "b2" = .ok e2
      ∧ e2.obranch = "b2"
      ∧ (∀ p, p ≤ c8orm.last_plan →
          e2.plan_ticks p = c8orm.plan_ticks p ∧ e2.plans p = c8orm.plans p)
      ∧ (∀ key : String × Nat × Nat, key.1 = c8orm.obranch →
          e2.where_cached key = c8orm.where_cached key
          ∧ ∀ c, e2.cacheData c key = c8orm.cacheData c key)
      ∧ (∀ pid ∈ c8orm.branches_plans c8orm.obranch,
          ¬(c8orm.oturn < (c8orm.plans pid).2.1
              ∨ ((c8orm.plans pid).2.1 = c8orm.oturn
                  ∧ c8orm.otick < (c8orm.plans pid).2.2)) →
          ∃ q, c8orm.last_plan < q
            ∧ e2.plan_ticks q
                = postforkAssoc c8orm.oturn c8orm.otick
                    (c8orm.plan_ticks pid)) :=
  c8_branch_fork_copies_plans c8orm "b2" rfl rfl (by decide)
    (by
      intro p hp
      have hp' : 1 < p := hp
      show (if p = 1 then [(0, [0, 1]), (1, [0])] else []) = []
      rw [if_neg (by omega)])
    (by
      intro pid hpid
      have hpid' : pid ∈ [1] := hpid
      have h1 : pid = 1 := by simpa using hpid'
      subst h1
      decide)
    (by
      intro pid hpid
      have hpid' : pid ∈ [1] := hpid
      have h1 : pid = 1 := by simpa using hpid'
      subst h1
      decide)
    (by
      intro pid hpid p hp t ht hq
      have hpid' : pid ∈ [1] := hpid
      have h1 : pid = 1 := by simpa using hpid'
      subst h1
      have hp' : p ∈ [((0 : Nat), [0, 1]), (1, [(0 : Nat)])] := hp
      simp only [List.mem_cons, List.not_mem_nil, or_false] at hp'
      rcases hp' with hp1 | hp1 <;> subst hp1
      · have ht' : t ∈ [0, 1] := ht
        simp only [List.mem_cons, List.not_mem_nil, or_false] at ht'
        rcases ht' with ht1 | ht1 <;> subst ht1
        · exact absurd ⟨rfl, by decide⟩ hq
        · exact ⟨.nodeVal, [7], by decide, by decide⟩
      · have ht' : t ∈ [0] := ht
        simp only [List.mem_cons, List.not_mem_nil, or_false] at ht'
        subst ht'
        exact ⟨.nodeVal, [7], by decide, by decide⟩)

/-- `loaded_keep_test`: whether `(test_turn, test_tick)` lies within the
window from `(past_turn, past_tick)` to `(future_turn, future_tick)`. -/
def loaded_keep_test (test_turn test_tick past_turn past_tick
    future_turn future_tick : Nat) : Bool :=
  decide ((past_turn < test_turn
      ∨ (past_turn = test_turn ∧ past_tick ≤ test_tick))
    ∧ (test_turn < future_turn
      ∨ (future_turn = test_turn ∧ test_tick ≤ future_tick)))

/-- The parent walk of `ORM._iter_parent_btt` after the initial yield:
follow each branch's parent and fork coordinate until a branch without a
recorded parent (the trunk) or without a record at all.  The fuel bounds
the walk; one more step than there are branches always suffices. -/
def parentChainAux (bs : List (String × BranchInfo)) :
    Nat → String → List (String × Nat × Nat)
  | 0, _ => []
  | fuel + 1, b =>
    match lookupA bs b with
    | none => []
    | some (parent, tst, kst, _, _) =>
        match parent with
        | none => []
        | some pb => (pb, tst, kst) :: parentChainAux bs fuel pb

/-- `ORM._iter_parent_btt` with no arguments: the cursor coordinate,
then each ancestor branch with its fork coordinate. -/
def iterParentBtt (e : Orm) : List (String × Nat × Nat) :=
  (e.obranch, e.oturn, e.otick)
    :: parentChainAux e.branches (e.branches.length + 1) e.obranch

/-- One keyframe tick of `unload`'s window-adjustment loop: a keyframe
within the loaded window pulls the early end up to it when it lies
between the early end and the cursor, or the late end down to it when it
lies between the cursor and the late end. -/
def kfAdjustTick (turn tick kfturn : Nat) (st : Nat × Nat × Nat × Nat)
    (kftick : Nat) : Nat × Nat × Nat × Nat :=
  if loaded_keep_test kfturn kftick st.1 st.2.1 st.2.2.1 st.2.2.2 then
    if (kfturn < turn ∨ (kfturn = turn ∧ kftick < tick))
        ∧ (st.1 < kfturn ∨ (kfturn = st.1 ∧ st.2.1 < kftick)) then
      (kfturn, kftick, st.2.2.1, st.2.2.2)
    else if (turn < kfturn ∨ (kfturn = turn ∧ tick ≤ kftick))
        ∧ (kfturn < st.2.2.1 ∨ (kfturn = st.2.2.1 ∧ kftick < st.2.2.2)) then
      (st.1, st.2.1, kfturn, kftick)
    else st
  else st

/-- The full window adjustment for one branch's keyframes, turn by turn
and tick by tick. -/
def kfAdjust (turn tick : Nat) (items : List (Nat × List Nat))
    (st : Nat × Nat × Nat × Nat) : Nat × Nat × Nat × Nat :=
  items.foldl (fun st2 p => p.2.foldl (kfAdjustTick turn tick p.1) st2) st

/-- The retention-window search of `unload`: walk the yielded ancestor
coordinates; an ancestor not loaded is skipped; a loaded ancestor with
keyframes pins the retained window at the nearest usable keyframe and
stops the walk (its asserted consistency check failing is an
`AssertionError`); a loaded ancestor without keyframes keeps its whole
loaded window and the walk continues. -/
def unloadFindKeep (e : Orm) (turn tick : Nat) :
    List (String × Nat × Nat) → List (String × Nat × Nat × Nat × Nat) →
    Except PyErr (List (String × Nat × Nat × Nat × Nat))
  | [], acc => .ok acc
  | (pb, pt, pk) :: rest, acc =>
      match lookupA e.loaded pb with
      | none => unloadFindKeep e turn tick rest acc
      | some (et, ek, lt, lk) =>
          match lookupA e.kfd pb with
          | some items =>
              match kfAdjust turn tick items (et, ek, lt, lk) with
              | (et2, ek2, lt2, lk2) =>
                  if loaded_keep_test pt pk et2 ek2 lt2 lk2 then
                    .ok (upsertA acc pb (et2, ek2, pt, pk))
                  else .error .assertionError
          | none => unloadFindKeep e turn tick rest
              (upsertA acc pb (et, ek, lt, lk))

/-- Modelled from the spec: the keyframe rows a cache retains for one
branch after `unload` truncates them to the kept window (`cache.py` is
absent from the sources) — whole turns outside the window are dropped,
and on the boundary turns the ticks outside the window are dropped. -/
def truncKfTurns (et ek lt lk : Nat)
    (turns : List (Nat × List (Nat × SRow))) :
    List (Nat × List (Nat × SRow)) :=
  (turns.filter (fun p => decide (et ≤ p.1 ∧ p.1 ≤ lt))).map (fun p =>
    (p.1, p.2.filter (fun q =>
      decide ((et < p.1 ∨ ek ≤ q.1) ∧ (p.1 < lt ∨ q.1 ≤ lk)))))

/-- Modelled from the spec: the truncation phase of `unload` once a
retained window per branch is fixed (`Cache.truncate` and
`Cache.remove_branch` live in the absent `cache.py`) — settings outside
a kept branch's window are dropped, loaded branches without a kept
window are removed entirely, never-loaded branches are untouched, and
the loaded registry becomes exactly the kept windows. -/
def unloadApply (e : Orm)
    (tk : List (String × Nat × Nat × Nat × Nat)) : Orm :=
  { e with
    cacheData := fun c key =>
      match lookupA tk key.1 with
      | some (et, ek, lt, lk) =>
          if loaded_keep_test key.2.1 key.2.2 et ek lt lk
          then e.cacheData c key else none
      | none =>
          if (lookupA e.loaded key.1).isSome then none
          else e.cacheData c key
    cacheKf := fun c => (e.cacheKf c).map (fun g =>
      (g.1, g.2.filterMap (fun b =>
        match lookupA tk b.1 with
        | some (et, ek, lt, lk) => some (b.1, truncKfTurns et ek lt lk b.2)
        | none =>
            if (lookupA e.loaded b.1).isSome then none else some b)))
    loaded := tk }

/-- `ORM.unload`: with no keyframes recorded at all it returns at once;
otherwise it searches the ancestor path for retention windows; finding
none it reports a warning and keeps everything (the engine's `warning`
sink, checked for with `hasattr` in the source and defined outside these
sources, is modelled from the spec as appending to a warning list);
otherwise it truncates history outside the kept windows. -/
def unload (e : Orm) : Except PyErr Orm :=
  if e.kfd.isEmpty then .ok e
  else
    match unloadFindKeep e e.oturn e.otick (iterParentBtt e) [] with
    | .error err => .error err
    | .ok to_keep =>
        if to_keep.isEmpty then
          .ok { e with warnings :=
            e.warnings ++ ["Not unloading, due to lack of keyframes"] }
        else .ok (unloadApply e to_keep)

theorem unloadFindKeep_skips (e : Orm) (turn tick : Nat)
    (l : List (String × Nat × Nat))
    (h : ∀ p ∈ l, lookupA e.loaded p.1 = none)
    (acc : List (String × Nat × Nat × Nat × Nat)) :
    unloadFindKeep e turn tick l acc = .ok acc := by
  induction l generalizing acc with
  | nil => rfl
  | cons p rest ih =>
      obtain ⟨pb, pt, pk⟩ := p
      have hp := h (pb, pt, pk) (List.mem_cons_self _ _)
      show unloadFindKeep e turn tick ((pb, pt, pk) :: rest) acc = .ok acc
      unfold unloadFindKeep
      rw [hp]
      exact ih (fun q hq => h q (List.mem_cons_of_mem _ hq)) acc

/-- A state with no keyframes recorded but with loaded history. -/
def c9orm : Orm := { baseOrm with loaded := [("trunk", (0, 0, 0, 0))] }

/-- C9, counterexample: with no keyframes recorded at all, `unload`
refuses to unload — the state, its loaded history included, is returned
untouched and no exception is raised — but it does so silently: no
warning is reported, contradicting the claim that this failure is
reported as a warning. -/
theorem c9_unload_counterexample :
    c9orm.kfd = [] ∧ c9orm.loaded ≠ []
      ∧ unload c9orm = .ok c9orm ∧ c9orm.warnings = [] :=
  ⟨rfl, by decide, rfl, rfl⟩

/-- C9, amended: when `unload` finds no keyframe to repin a retained
window it refuses to unload, returning with all loaded history resident
and raising no exception; but the failure is reported as a warning only
when keyframes exist and no ancestor on the path to the cursor is
loaded — when no keyframes are recorded at all, it returns silently with
no warning. -/
theorem c9_unload_refuses (e : Orm)
    (h : e.kfd = [] ∨ ∀ p ∈ iterParentBtt e, lookupA e.loaded p.1 = none) :
    ∃ e2, unload e = .ok e2
      ∧ e2.loaded = e.loaded
      ∧ e2.cacheData = e.cacheData
      ∧ e2.cacheKf = e.cacheKf
      ∧ (e.kfd = [] → e2.warnings = e.warnings)
      ∧ (e.kfd ≠ [] → e2.warnings
          = e.warnings ++ ["Not unloading, due to lack of keyframes"]) := by
  by_cases hk : e.kfd = []
  · refine ⟨e, ?_, rfl, rfl, rfl, fun _ => rfl, fun hne => absurd hk hne⟩
    unfold unload
    rw [if_pos (by rw [hk]; rfl)]
  · have hall : ∀ p ∈ iterParentBtt e, lookupA e.loaded p.1 = none := by
      rcases h with h1 | h1
      · exact absurd h1 hk
      · exact h1
    refine ⟨{ e with warnings :=
        e.warnings ++ ["Not unloading, due to lack of keyframes"] },
      ?_, rfl, rfl, rfl, fun he => absurd he hk, fun _ => rfl⟩
    unfold unload
    rw [if_neg (by rw [List.isEmpty_iff]; exact hk),
      unloadFindKeep_skips e e.oturn e.otick (iterParentBtt e) hall []]
    rfl

/-- A state with a keyframe recorded on a stray branch while no branch
on the cursor's ancestor path (just the trunk) is loaded. -/
def c9wit : Orm := { baseOrm with
  kfd := [("dead", [(0, [0])])]
  loaded := [("other", (0, 0, 0, 0))] }

theorem c9_unload_refuses_witness :
    ∃ e2, unload c9wit = .ok e2
      ∧ e2.loaded = c9wit.loaded
      ∧ e2.cacheData = c9wit.cacheData
      ∧ e2.cacheKf = c9wit.cacheKf
      ∧ (c9wit.kfd = [] → e2.warnings = c9wit.warnings)
      ∧ (c9wit.kfd ≠ [] → e2.warnings
          = c9wit.warnings ++ ["Not unloading, due to lack of keyframes"]) :=
  c9_unload_refuses c9wit (Or.inr (by decide))
